import Mathlib

/-!
Verification of the outermorphism builder and evaluator described in the
repository's specification (the `clifford.transformations.OutermorphismMatrix`
functionality exercised by `docs/tutorials/linear-transformations.ipynb`).

The blade basis of the exterior algebra over an N-dimensional vector space is
indexed by bitmasks in `[0, 2^N)`: bit `i` of a mask records whether generator
`e_(i+1)` occurs in the blade.  A multivector is a coefficient vector indexed
by blades; coefficients are rational numbers, an exact stand-in for the real
coefficient field of the specification.  The wedge product of basis blades
carries the sign of the permutation that merges the two ascending index lists,
i.e. the parity of the number of crossing pairs.
-/

/-- Number of generators of the blade `k` that lie below position `n`:
the grade of the blade when `k < 2^n`. -/
def bitGrade (n k : ℕ) : ℕ :=
  ∑ i ∈ Finset.range n, if Nat.testBit k i then 1 else 0

/-- Number of crossing pairs between the ascending generator lists of the
blades `a` and `b` (both below `2^n`): pairs with a generator of `a` strictly
above a generator of `b`.  The wedge sign is the parity of this count. -/
def invCount (n a b : ℕ) : ℕ :=
  ∑ i ∈ Finset.range n, ∑ j ∈ Finset.range n,
    if j < i ∧ Nat.testBit a i ∧ Nat.testBit b j then 1 else 0

/-- Sign picked up when wedging blade `a` with blade `b` (for `a`, `b < 2^n`). -/
def wsign (n a b : ℕ) : ℚ :=
  (-1 : ℚ) ^ invCount n a b

/-- Fuel-driven position of the highest set bit (`tbAux f n` is correct for
`n ≤ f`); structural in the fuel so that the kernel can evaluate it. -/
def tbAux : ℕ → ℕ → ℕ
  | 0, _ => 0
  | f + 1, n => if n < 2 then 0 else tbAux f (n / 2) + 1

/-- Position of the highest set bit of `n` (for `n ≥ 1`). -/
def tb (n : ℕ) : ℕ := tbAux n n

/-- Multivector of the layout of dimension `N`: a rational coefficient for
each of the `2^N` basis blades. -/
abbrev MV (N : ℕ) : Type := Fin (2 ^ N) → ℚ

/-- Basis blade `k` as a multivector: coefficient `1` in slot `k`, `0`
elsewhere.  Blade `0` is the scalar blade, blade `2^N - 1` the pseudoscalar. -/
def blade {N : ℕ} (k : Fin (2 ^ N)) : MV N :=
  fun i => if i = k then 1 else 0

/-- Modelled from the spec: the wedge (exterior) product on multivectors of the
algebra layout, the product the missing `clifford` multivector implementation
supplies.  Blades combine only when their generator sets are disjoint
(`i &&& j = 0`), the resulting blade is the disjoint union (`i + j`), and the
coefficient carries the crossing-pair sign. -/
def wedge {N : ℕ} (x y : MV N) : MV N :=
  fun k => ∑ i : Fin (2 ^ N), ∑ j : Fin (2 ^ N),
    if (i : ℕ) &&& (j : ℕ) = 0 ∧ (i : ℕ) + (j : ℕ) = (k : ℕ) then
      wsign N i j * x i * y j
    else 0

/-- Grade-1 multivector with coordinate `c j` on the generator blade `2^j`. -/
def vecMV {N : ℕ} (c : Fin N → ℚ) : MV N :=
  fun k => ∑ j : Fin N, if (k : ℕ) = 2 ^ (j : ℕ) then c j else 0

/-- Modelled from the spec: the image of generator `t` under the input linear
map, i.e. column `t` of the `N×N` matrix expressed in the grade-1 slots. -/
def vecCol {N : ℕ} (m : Matrix (Fin N) (Fin N) ℚ) (t : ℕ) : MV N :=
  if h : t < N then vecMV (fun j => m j ⟨t, h⟩) else 0

/-- Fuel-driven outermorphism image of a blade (correct for `B ≤ fuel`):
the scalar blade is fixed, and a blade `B ≠ 0` maps to the image of `B`
without its highest generator, wedged with the image of that generator. -/
def omAux {N : ℕ} (m : Matrix (Fin N) (Fin N) ℚ) : ℕ → ℕ → MV N
  | 0, _ => blade ⟨0, Nat.two_pow_pos N⟩
  | f + 1, B =>
    if B = 0 then blade ⟨0, Nat.two_pow_pos N⟩
    else wedge (omAux m f (B % 2 ^ tb B)) (vecCol m (tb B))

/-- Modelled from the spec: the image `f(B)` of basis blade `B` under the
outermorphism extension of the linear map `m`, built bottom-up by wedging in
one generator image at a time (§4.2 of the specification); this is column `B`
of the `(2^N)×(2^N)` outermorphism matrix. -/
def omImage {N : ℕ} (m : Matrix (Fin N) (Fin N) ℚ) (B : ℕ) : MV N :=
  omAux m B B

/-- Modelled from the spec: application of the built outermorphism to a
multivector, the matrix-vector product of the blade matrix with the
coefficient vector. -/
def applyOM {N : ℕ} (m : Matrix (Fin N) (Fin N) ℚ) (x : MV N) : MV N :=
  fun k => ∑ B : Fin (2 ^ N), x B * omImage m (B : ℕ) k

/-- Modelled from the spec: the full `(2^N)×(2^N)` outermorphism matrix; the
entry at (row blade, column blade) is the coefficient of the row blade in the
image of the column blade. -/
def omMatrix {N : ℕ} (m : Matrix (Fin N) (Fin N) ℚ) :
    Matrix (Fin (2 ^ N)) (Fin (2 ^ N)) ℚ :=
  Matrix.of fun r c => omImage m (c : ℕ) r

/-- Iterated wedge product of a finite family of multivectors, combined from
the left: the empty chain is the scalar blade. -/
def wedgeChain {N : ℕ} : (n : ℕ) → (Fin n → MV N) → MV N
  | 0, _ => blade ⟨0, Nat.two_pow_pos N⟩
  | n + 1, v => wedge (wedgeChain n (fun i => v i.castSucc)) (v (Fin.last n))

/-- Pseudoscalar blade index (all generators present). -/
def psFin (N : ℕ) : Fin (2 ^ N) :=
  ⟨2 ^ N - 1, Nat.sub_lt (Nat.two_pow_pos N) Nat.one_pos⟩

/-- Predicate for grade-1 multivectors: support only on generator blades. -/
def isVec {N : ℕ} (x : MV N) : Prop :=
  ∀ k : Fin (2 ^ N), (∀ j : Fin N, (k : ℕ) ≠ 2 ^ (j : ℕ)) → x k = 0

instance {N : ℕ} (x : MV N) : Decidable (isVec x) := by
  unfold isVec; infer_instance

/-- Blade index of the single generator `j`. -/
def pow2Fin {N : ℕ} (j : Fin N) : Fin (2 ^ N) :=
  ⟨2 ^ (j : ℕ), (Nat.pow_lt_pow_iff_right (by norm_num)).mpr j.isLt⟩

/-- Modelled from the notebook's manual path (`v_trans`): unpack the grade-1
coordinates of a vector, multiply by the N×N matrix, and repack the result into
the grade-1 slots of a fresh zero multivector. -/
def manualTransform {N : ℕ} (m : Matrix (Fin N) (Fin N) ℚ) (v : MV N) : MV N :=
  vecMV (fun r => ∑ i : Fin N, m r i * v (pow2Fin i))

/-- Concrete N=3 input matrix of the tutorial (`rot_and_scale_x`):
rows (1,0,0), (0,1,-1), (0,1,1). -/
def rotAndScaleX : Matrix (Fin 3) (Fin 3) ℚ :=
  Matrix.of fun i j =>
    if i = 0 then (if j = 0 then 1 else 0)
    else if i = 1 then (if j = 0 then 0 else if j = 1 then 1 else -1)
    else (if j = 0 then 0 else if j = 1 then 1 else 1)

/-- Error taxonomy of the specification relevant to build and apply time. -/
inductive TransformError : Type
  | dimensionMismatch
deriving DecidableEq

/-- Untyped input matrix as supplied by a caller: a shape and an entry table. -/
structure RawMatrix : Type where
  rows : ℕ
  cols : ℕ
  entry : ℕ → ℕ → ℚ

/-- Untyped multivector as supplied by a caller: the number of blade slots of
its layout and a coefficient table. -/
structure RawMV : Type where
  dim : ℕ
  coeff : ℕ → ℚ

/-- Modelled from the spec: `build_outermorphism` checks that the supplied
matrix is N×N for the layout's declared dimension N and fails with
`DimensionMismatch` otherwise; no partial result accompanies a failure. -/
def buildOutermorphism (N : ℕ) (rm : RawMatrix) :
    Except TransformError (Matrix (Fin (2 ^ N)) (Fin (2 ^ N)) ℚ) :=
  if rm.rows = N ∧ rm.cols = N then
    Except.ok (omMatrix (Matrix.of fun i j : Fin N => rm.entry i j))
  else Except.error TransformError.dimensionMismatch

/-- Modelled from the spec: `apply` checks that the multivector's blade basis
matches the one used to build the matrix (the 2^N blade slots of the layout)
and fails with `DimensionMismatch` otherwise. -/
def applyOutermorphism (N : ℕ) (m : Matrix (Fin N) (Fin N) ℚ) (v : RawMV) :
    Except TransformError (MV N) :=
  if v.dim = 2 ^ N then Except.ok (applyOM m (fun k => v.coeff k))
  else Except.error TransformError.dimensionMismatch

/-! Top-bit function: specification and uniqueness. -/

theorem tbAux_spec : ∀ f n, 1 ≤ n → n ≤ f → 2 ^ tbAux f n ≤ n ∧ n < 2 ^ (tbAux f n + 1) := by
  intro f
  induction f with
  | zero => intro n h1 h2; omega
  | succ f ih =>
    intro n h1 h2
    by_cases h : n < 2
    · simp only [tbAux, if_pos h]
      constructor
      · simpa using h1
      · simpa using h
    · simp only [tbAux, if_neg h]
      have hd1 : 1 ≤ n / 2 := Nat.one_le_div_iff (by omega) |>.mpr (by omega)
      have hd2 : n / 2 ≤ f := by omega
      obtain ⟨hl, hr⟩ := ih (n / 2) hd1 hd2
      have hmod := Nat.div_add_mod n 2
      constructor
      · have : 2 ^ (tbAux f (n / 2) + 1) = 2 * 2 ^ tbAux f (n / 2) := by ring
        rw [this]; omega
      · have : 2 ^ (tbAux f (n / 2) + 1 + 1) = 2 * 2 ^ (tbAux f (n / 2) + 1) := by ring
        rw [this]; omega

theorem tb_spec {n : ℕ} (h : 1 ≤ n) : 2 ^ tb n ≤ n ∧ n < 2 ^ (tb n + 1) :=
  tbAux_spec n n h le_rfl

theorem tb_unique {n t : ℕ} (h1 : 2 ^ t ≤ n) (h2 : n < 2 ^ (t + 1)) : tb n = t := by
  have hn : 1 ≤ n := le_trans (Nat.one_le_two_pow) h1
  obtain ⟨hl, hr⟩ := tb_spec hn
  have ha : tb n < t + 1 := by
    have := lt_of_le_of_lt hl h2
    exact (Nat.pow_lt_pow_iff_right (by norm_num)).mp this
  have hb : t < tb n + 1 := by
    have := lt_of_le_of_lt h1 hr
    exact (Nat.pow_lt_pow_iff_right (by norm_num)).mp this
  omega

theorem tb_pow_add {S t : ℕ} (h : S < 2 ^ t) : tb (S + 2 ^ t) = t := by
  apply tb_unique
  · omega
  · have : 2 ^ (t + 1) = 2 ^ t + 2 ^ t := by ring
    omega

/-! Unfolding equations for the outermorphism builder. -/

theorem omAux_stable {N : ℕ} (m : Matrix (Fin N) (Fin N) ℚ) :
    ∀ B f1 f2, B ≤ f1 → B ≤ f2 → omAux m f1 B = omAux m f2 B := by
  intro B
  induction B using Nat.strong_induction_on with
  | _ B ih =>
    intro f1 f2 h1 h2
    by_cases hB : B = 0
    · subst hB
      cases f1 <;> cases f2 <;> simp [omAux]
    · have hB1 : 1 ≤ B := by omega
      obtain ⟨f1', rfl⟩ : ∃ f1', f1 = f1' + 1 := ⟨f1 - 1, by omega⟩
      obtain ⟨f2', rfl⟩ : ∃ f2', f2 = f2' + 1 := ⟨f2 - 1, by omega⟩
      simp only [omAux, if_neg hB]
      have hlt : B % 2 ^ tb B < B := by
        have hle := (tb_spec hB1).1
        have := Nat.mod_lt B (y := 2 ^ tb B) (Nat.two_pow_pos _)
        omega
      rw [ih (B % 2 ^ tb B) hlt f1' f2' (by omega) (by omega)]

theorem omImage_zero {N : ℕ} (m : Matrix (Fin N) (Fin N) ℚ) :
    omImage m 0 = blade ⟨0, Nat.two_pow_pos N⟩ := rfl

theorem omImage_eq {N : ℕ} (m : Matrix (Fin N) (Fin N) ℚ) {B : ℕ} (hB : B ≠ 0) :
    omImage m B = wedge (omImage m (B % 2 ^ tb B)) (vecCol m (tb B)) := by
  have hB1 : 1 ≤ B := by omega
  obtain ⟨B', rfl⟩ : ∃ B', B = B' + 1 := ⟨B - 1, by omega⟩
  show omAux m (B' + 1) (B' + 1) = _
  simp only [omAux, if_neg hB]
  have hlt : (B' + 1) % 2 ^ tb (B' + 1) < B' + 1 := by
    have hle := (tb_spec hB1).1
    have := Nat.mod_lt (B' + 1) (y := 2 ^ tb (B' + 1)) (Nat.two_pow_pos _)
    omega
  rw [omAux_stable m ((B' + 1) % 2 ^ tb (B' + 1)) B' ((B' + 1) % 2 ^ tb (B' + 1))
    (by omega) le_rfl]
  rfl

theorem omImage_add_pow {N : ℕ} (m : Matrix (Fin N) (Fin N) ℚ) {S t : ℕ}
    (h : S < 2 ^ t) :
    omImage m (S + 2 ^ t) = wedge (omImage m S) (vecCol m t) := by
  have hne : S + 2 ^ t ≠ 0 := by have := Nat.two_pow_pos t; omega
  rw [omImage_eq m hne, tb_pow_add h, Nat.add_mod_right, Nat.mod_eq_of_lt h]

/-! Disjoint bitmasks: basic arithmetic. -/

theorem and_eq_zero_iff {a b : ℕ} :
    a &&& b = 0 ↔ ∀ i, a.testBit i = false ∨ b.testBit i = false := by
  constructor
  · intro h i
    have := congrArg (fun n => n.testBit i) h
    simp only [Nat.testBit_land, Nat.zero_testBit] at this
    rcases Bool.and_eq_false_iff.mp this with h' | h'
    · exact Or.inl h'
    · exact Or.inr h'
  · intro h
    apply Nat.zero_of_testBit_eq_false
    intro i
    rw [Nat.testBit_land]
    rcases h i with h' | h' <;> simp [h']

theorem or_eq_add {a b : ℕ} (h : a &&& b = 0) : a ||| b = a + b := by
  induction a using Nat.binaryRec generalizing b with
  | z => simp
  | f a0 a' ih =>
    cases b using Nat.bitCasesOn with
    | h b0 b' =>
      rw [Nat.land_bit] at h
      obtain ⟨h1, h2⟩ := Nat.bit_eq_zero_iff.mp h
      rw [Nat.lor_bit, Nat.bit_val, Nat.bit_val, Nat.bit_val, ih h1]
      cases a0 <;> cases b0 <;> simp at h2 ⊢ <;> omega

theorem add_lt_two_pow {a b N : ℕ} (h : a &&& b = 0) (ha : a < 2 ^ N)
    (hb : b < 2 ^ N) : a + b < 2 ^ N := by
  rw [← or_eq_add h]; exact Nat.or_lt_two_pow ha hb

theorem testBit_false_of_high {a N i : ℕ} (ha : a < 2 ^ N) (hi : N ≤ i) :
    a.testBit i = false :=
  Nat.testBit_eq_false_of_lt (lt_of_lt_of_le ha (Nat.pow_le_pow_right (by norm_num) hi))

/-! Grade (bit count) lemmas. -/

theorem bitGrade_zero (n : ℕ) : bitGrade n 0 = 0 := by
  simp [bitGrade, Nat.zero_testBit]

theorem bitGrade_add {n a b : ℕ} (h : a &&& b = 0) :
    bitGrade n (a + b) = bitGrade n a + bitGrade n b := by
  rw [← or_eq_add h]
  unfold bitGrade
  rw [← Finset.sum_add_distrib]
  apply Finset.sum_congr rfl
  intro i _
  rw [Nat.testBit_lor]
  rcases and_eq_zero_iff.mp h i with h' | h' <;>
    cases ha : a.testBit i <;> cases hb : b.testBit i <;> simp_all

theorem bitGrade_two_pow {n j : ℕ} (hj : j < n) : bitGrade n (2 ^ j) = 1 := by
  unfold bitGrade
  have : ∀ i ∈ Finset.range n, (if (2 ^ j).testBit i then (1 : ℕ) else 0)
      = if j = i then 1 else 0 := by
    intro i _
    simp [Nat.testBit_two_pow]
  rw [Finset.sum_congr rfl this, Finset.sum_ite_eq]
  simp [hj]

/-! Crossing-count lemmas. -/

theorem invCount_zero_left (n b : ℕ) : invCount n 0 b = 0 := by
  simp [invCount, Nat.zero_testBit]

theorem invCount_zero_right (n a : ℕ) : invCount n a 0 = 0 := by
  simp [invCount, Nat.zero_testBit]

theorem invCount_or_left {n a b c : ℕ} (h : a &&& b = 0) :
    invCount n (a ||| b) c = invCount n a c + invCount n b c := by
  unfold invCount
  rw [← Finset.sum_add_distrib]
  apply Finset.sum_congr rfl
  intro i _
  rw [← Finset.sum_add_distrib]
  apply Finset.sum_congr rfl
  intro j _
  rw [Nat.testBit_lor]
  rcases and_eq_zero_iff.mp h i with h' | h' <;>
    cases ha : a.testBit i <;> cases hb : b.testBit i <;> simp_all

theorem invCount_or_right {n a b c : ℕ} (h : b &&& c = 0) :
    invCount n a (b ||| c) = invCount n a b + invCount n a c := by
  unfold invCount
  rw [← Finset.sum_add_distrib]
  apply Finset.sum_congr rfl
  intro i _
  rw [← Finset.sum_add_distrib]
  apply Finset.sum_congr rfl
  intro j _
  rw [Nat.testBit_lor]
  rcases and_eq_zero_iff.mp h j with h' | h' <;>
    cases hb : b.testBit j <;> cases hc : c.testBit j <;> simp_all

theorem invCount_two_pow {n a b : ℕ} (ha : a < n) (hb : b < n) :
    invCount n (2 ^ a) (2 ^ b) = if b < a then 1 else 0 := by
  unfold invCount
  rw [Finset.sum_eq_single a]
  · rw [Finset.sum_eq_single b]
    · simp [Nat.testBit_two_pow]
    · intro j _ hj
      simp [Nat.testBit_two_pow, Ne.symm hj]
    · intro hmem
      simp at hmem
      omega
  · intro i _ hi
    simp only [Nat.testBit_two_pow]
    rw [Finset.sum_eq_zero]
    intro j _
    simp [Ne.symm hi]
  · intro hmem
    simp at hmem
    omega

theorem invCount_two_pow_right_zero {n a t : ℕ} (ha : a < 2 ^ (t + 1)) :
    invCount n a (2 ^ t) = 0 := by
  unfold invCount
  rw [Finset.sum_eq_zero]
  intro i _
  rw [Finset.sum_eq_zero]
  intro j _
  simp only [Nat.testBit_two_pow, decide_eq_true_eq]
  rw [if_neg]
  rintro ⟨hji, hai, hj⟩
  subst hj
  have : a.testBit i = false :=
    Nat.testBit_eq_false_of_lt (lt_of_lt_of_le ha (Nat.pow_le_pow_right (by norm_num) hji))
  simp [this] at hai

/-! Wedge-sign lemmas. -/

theorem wsign_zero_left (n b : ℕ) : wsign n 0 b = 1 := by
  simp [wsign, invCount_zero_left]

theorem wsign_zero_right (n a : ℕ) : wsign n a 0 = 1 := by
  simp [wsign, invCount_zero_right]

theorem wsign_or_left {n a b c : ℕ} (h : a &&& b = 0) :
    wsign n (a ||| b) c = wsign n a c * wsign n b c := by
  rw [wsign, invCount_or_left h, pow_add]; rfl

theorem wsign_or_right {n a b c : ℕ} (h : b &&& c = 0) :
    wsign n a (b ||| c) = wsign n a b * wsign n a c := by
  rw [wsign, invCount_or_right h, pow_add]; rfl

/-! Bilinearity of the wedge product. -/

theorem wedge_zero_left {N : ℕ} (y : MV N) : wedge 0 y = 0 := by
  funext k
  simp [wedge]

theorem wedge_zero_right {N : ℕ} (x : MV N) : wedge x 0 = 0 := by
  funext k
  simp [wedge]

theorem wedge_add_left {N : ℕ} (x x' y : MV N) :
    wedge (x + x') y = wedge x y + wedge x' y := by
  funext k
  simp only [wedge, Pi.add_apply]
  rw [← Finset.sum_add_distrib]
  apply Finset.sum_congr rfl
  intro i _
  rw [← Finset.sum_add_distrib]
  apply Finset.sum_congr rfl
  intro j _
  by_cases h : (i : ℕ) &&& (j : ℕ) = 0 ∧ (i : ℕ) + (j : ℕ) = (k : ℕ)
  · simp only [if_pos h]; ring
  · simp only [if_neg h]; ring

theorem wedge_add_right {N : ℕ} (x y y' : MV N) :
    wedge x (y + y') = wedge x y + wedge x y' := by
  funext k
  simp only [wedge, Pi.add_apply]
  rw [← Finset.sum_add_distrib]
  apply Finset.sum_congr rfl
  intro i _
  rw [← Finset.sum_add_distrib]
  apply Finset.sum_congr rfl
  intro j _
  by_cases h : (i : ℕ) &&& (j : ℕ) = 0 ∧ (i : ℕ) + (j : ℕ) = (k : ℕ)
  · simp only [if_pos h]; ring
  · simp only [if_neg h]; ring

theorem wedge_smul_left {N : ℕ} (c : ℚ) (x y : MV N) :
    wedge (c • x) y = c • wedge x y := by
  funext k
  simp only [wedge, Pi.smul_apply, smul_eq_mul, Finset.mul_sum]
  apply Finset.sum_congr rfl
  intro i _
  apply Finset.sum_congr rfl
  intro j _
  by_cases h : (i : ℕ) &&& (j : ℕ) = 0 ∧ (i : ℕ) + (j : ℕ) = (k : ℕ)
  · simp only [if_pos h, mul_ite, mul_zero]; ring
  · simp only [if_neg h, mul_ite, mul_zero]

theorem wedge_smul_right {N : ℕ} (c : ℚ) (x y : MV N) :
    wedge x (c • y) = c • wedge x y := by
  funext k
  simp only [wedge, Pi.smul_apply, smul_eq_mul, Finset.mul_sum]
  apply Finset.sum_congr rfl
  intro i _
  apply Finset.sum_congr rfl
  intro j _
  by_cases h : (i : ℕ) &&& (j : ℕ) = 0 ∧ (i : ℕ) + (j : ℕ) = (k : ℕ)
  · simp only [if_pos h, mul_ite, mul_zero]; ring
  · simp only [if_neg h, mul_ite, mul_zero]

theorem wedge_sum_left {N : ℕ} {α : Type} (s : Finset α) (f : α → MV N) (y : MV N) :
    wedge (∑ a ∈ s, f a) y = ∑ a ∈ s, wedge (f a) y := by
  induction s using Finset.cons_induction with
  | empty => simp [wedge_zero_left]
  | cons a s ha ih => rw [Finset.sum_cons, Finset.sum_cons, wedge_add_left, ih]

theorem wedge_sum_right {N : ℕ} {α : Type} (s : Finset α) (f : α → MV N) (x : MV N) :
    wedge x (∑ a ∈ s, f a) = ∑ a ∈ s, wedge x (f a) := by
  induction s using Finset.cons_induction with
  | empty => simp [wedge_zero_right]
  | cons a s ha ih => rw [Finset.sum_cons, Finset.sum_cons, wedge_add_right, ih]

theorem wedge_neg_left {N : ℕ} (x y : MV N) : wedge (-x) y = -(wedge x y) := by
  have h := wedge_smul_left (-1 : ℚ) x y
  simpa [neg_one_smul] using h

theorem wedge_neg_right {N : ℕ} (x y : MV N) : wedge x (-y) = -(wedge x y) := by
  have h := wedge_smul_right (-1 : ℚ) x y
  simpa [neg_one_smul] using h

/-! Blade decomposition of a multivector. -/

theorem mv_decompose {N : ℕ} (x : MV N) : x = ∑ k : Fin (2 ^ N), x k • blade k := by
  funext l
  simp only [Finset.sum_apply, Pi.smul_apply, blade, smul_eq_mul, mul_ite, mul_one,
    mul_zero]
  rw [Finset.sum_ite_eq]
  simp

/-! Wedge product of basis blades. -/

theorem blade_wedge_blade {N : ℕ} {a b : Fin (2 ^ N)} (h : (a : ℕ) &&& (b : ℕ) = 0) :
    wedge (blade a) (blade b)
      = wsign N a b • blade ⟨(a : ℕ) + (b : ℕ), add_lt_two_pow h a.isLt b.isLt⟩ := by
  funext k
  simp only [wedge, blade, Pi.smul_apply, smul_eq_mul]
  rw [Finset.sum_eq_single a]
  · rw [Finset.sum_eq_single b]
    · by_cases hk : (a : ℕ) + (b : ℕ) = (k : ℕ)
      · rw [if_pos ⟨h, hk⟩, if_pos (Fin.ext hk.symm)]
        simp
      · rw [if_neg (fun hc => hk hc.2), if_neg, mul_zero]
        intro hc
        exact hk (congrArg Fin.val hc).symm
    · intro j _ hj
      simp [hj]
    · simp
  · intro i _ hi
    rw [Finset.sum_eq_zero]
    intro j _
    simp [hi]
  · simp

theorem blade_wedge_blade_overlap {N : ℕ} {a b : Fin (2 ^ N)}
    (h : (a : ℕ) &&& (b : ℕ) ≠ 0) : wedge (blade a) (blade b) = 0 := by
  funext k
  simp only [wedge, blade, Pi.zero_apply]
  rw [Finset.sum_eq_zero]
  intro i _
  rw [Finset.sum_eq_zero]
  intro j _
  by_cases hi : i = a
  · by_cases hj : j = b
    · subst hi; subst hj
      rw [if_neg (fun hc => h hc.1)]
    · simp [hj]
  · simp [hi]

/-! The scalar blade is a two-sided unit for the wedge product. -/

theorem wedge_scalar_left {N : ℕ} (y : MV N) :
    wedge (blade ⟨0, Nat.two_pow_pos N⟩) y = y := by
  funext k
  simp only [wedge, blade]
  rw [Finset.sum_eq_single ⟨0, Nat.two_pow_pos N⟩]
  · rw [Finset.sum_eq_single k]
    · simp [wsign_zero_left]
    · intro j _ hj
      rw [if_neg]
      rintro ⟨-, hj'⟩
      exact hj (Fin.ext (by simpa using hj'))
    · simp
  · intro i _ hi
    rw [Finset.sum_eq_zero]
    intro j _
    simp [hi]
  · simp

theorem wedge_scalar_right {N : ℕ} (x : MV N) :
    wedge x (blade ⟨0, Nat.two_pow_pos N⟩) = x := by
  funext k
  simp only [wedge, blade]
  have inner : ∀ i : Fin (2 ^ N),
      (∑ j : Fin (2 ^ N), if (i : ℕ) &&& (j : ℕ) = 0 ∧ (i : ℕ) + (j : ℕ) = (k : ℕ) then
        wsign N i j * x i * (if j = ⟨0, Nat.two_pow_pos N⟩ then 1 else 0) else 0)
      = if i = k then x i else 0 := by
    intro i
    rw [Finset.sum_eq_single ⟨0, Nat.two_pow_pos N⟩]
    · by_cases hik : i = k
      · subst hik
        simp [wsign_zero_right]
      · rw [if_neg, if_neg hik]
        rintro ⟨-, hik'⟩
        exact hik (Fin.ext (by simpa using hik'))
    · intro j _ hj
      simp [hj]
    · simp
  rw [Finset.sum_congr rfl (fun i _ => inner i), Finset.sum_ite_eq']
  simp

/-! Disjointness bookkeeping for three blades. -/

theorem and_add_left_eq_zero_iff {a b c : ℕ} (h : a &&& b = 0) :
    (a + b) &&& c = 0 ↔ a &&& c = 0 ∧ b &&& c = 0 := by
  rw [← or_eq_add h]
  simp only [and_eq_zero_iff, Nat.testBit_lor, Bool.or_eq_false_iff, ← forall_and]
  apply forall_congr'
  intro i
  tauto

theorem and_add_right_eq_zero_iff {a b c : ℕ} (h : b &&& c = 0) :
    a &&& (b + c) = 0 ↔ a &&& b = 0 ∧ a &&& c = 0 := by
  rw [← or_eq_add h]
  simp only [and_eq_zero_iff, Nat.testBit_lor, Bool.or_eq_false_iff, ← forall_and]
  apply forall_congr'
  intro i
  tauto

theorem wsign_add_left {n a b c : ℕ} (h : a &&& b = 0) :
    wsign n (a + b) c = wsign n a c * wsign n b c := by
  rw [← or_eq_add h, wsign_or_left h]

theorem wsign_add_right {n a b c : ℕ} (h : b &&& c = 0) :
    wsign n a (b + c) = wsign n a b * wsign n a c := by
  rw [← or_eq_add h, wsign_or_right h]

theorem wsign_assoc_identity {n a b c : ℕ} (hab : a &&& b = 0)
    (hbc : b &&& c = 0) :
    wsign n a b * wsign n (a + b) c = wsign n b c * wsign n a (b + c) := by
  rw [wsign_add_left hab, wsign_add_right hbc]
  ring

/-! Associativity of the wedge product, first on blades and then in general. -/

theorem wedge_assoc_blade3 {N : ℕ} (a b c : Fin (2 ^ N)) :
    wedge (wedge (blade a) (blade b)) (blade c)
      = wedge (blade a) (wedge (blade b) (blade c)) := by
  by_cases hab : (a : ℕ) &&& (b : ℕ) = 0
  · by_cases hbc : (b : ℕ) &&& (c : ℕ) = 0
    · rw [blade_wedge_blade hab, blade_wedge_blade hbc, wedge_smul_left, wedge_smul_right]
      by_cases hacbc : (a : ℕ) &&& ((b : ℕ) + (c : ℕ)) = 0
      · have hac : (a : ℕ) &&& (c : ℕ) = 0 :=
          ((and_add_right_eq_zero_iff hbc).mp hacbc).2
        have habc : ((a : ℕ) + (b : ℕ)) &&& (c : ℕ) = 0 :=
          (and_add_left_eq_zero_iff hab).mpr ⟨hac, hbc⟩
        rw [blade_wedge_blade (a := ⟨(a : ℕ) + (b : ℕ), _⟩) habc,
          blade_wedge_blade (b := ⟨(b : ℕ) + (c : ℕ), _⟩) hacbc]
        rw [smul_smul, smul_smul]
        have hidx : ((a : ℕ) + (b : ℕ)) + (c : ℕ) = (a : ℕ) + ((b : ℕ) + (c : ℕ)) :=
          add_assoc _ _ _
        have hblade : (⟨((a : ℕ) + (b : ℕ)) + (c : ℕ), add_lt_two_pow habc
              (add_lt_two_pow hab a.isLt b.isLt) c.isLt⟩ : Fin (2 ^ N))
            = ⟨(a : ℕ) + ((b : ℕ) + (c : ℕ)), add_lt_two_pow hacbc a.isLt
              (add_lt_two_pow hbc b.isLt c.isLt)⟩ := Fin.ext hidx
        rw [hblade, wsign_assoc_identity hab hbc]
      · have hacbc' : ((a : ℕ) + (b : ℕ)) &&& (c : ℕ) ≠ 0 := by
          intro hc
          have hac := ((and_add_left_eq_zero_iff hab).mp hc).1
          exact hacbc ((and_add_right_eq_zero_iff hbc).mpr ⟨hab, hac⟩)
        rw [blade_wedge_blade_overlap (a := ⟨(a : ℕ) + (b : ℕ), _⟩) hacbc',
          blade_wedge_blade_overlap (b := ⟨(b : ℕ) + (c : ℕ), _⟩) hacbc]
        simp
    · rw [blade_wedge_blade_overlap hbc, wedge_zero_right, blade_wedge_blade hab,
        wedge_smul_left]
      have hrest : ((a : ℕ) + (b : ℕ)) &&& (c : ℕ) ≠ 0 := by
        intro hc
        exact hbc ((and_add_left_eq_zero_iff hab).mp hc).2
      rw [blade_wedge_blade_overlap (a := ⟨(a : ℕ) + (b : ℕ), _⟩) hrest]
      simp
  · rw [blade_wedge_blade_overlap hab, wedge_zero_left]
    by_cases hbc : (b : ℕ) &&& (c : ℕ) = 0
    · rw [blade_wedge_blade hbc, wedge_smul_right]
      have hrest : (a : ℕ) &&& ((b : ℕ) + (c : ℕ)) ≠ 0 := by
        intro hc
        exact hab ((and_add_right_eq_zero_iff hbc).mp hc).1
      rw [blade_wedge_blade_overlap (b := ⟨(b : ℕ) + (c : ℕ), _⟩) hrest]
      simp
    · rw [blade_wedge_blade_overlap hbc, wedge_zero_right]

theorem wedge_assoc_blade2 {N : ℕ} (a b : Fin (2 ^ N)) (z : MV N) :
    wedge (wedge (blade a) (blade b)) z
      = wedge (blade a) (wedge (blade b) z) := by
  rw [mv_decompose z]
  simp only [wedge_sum_right, wedge_smul_right]
  apply Finset.sum_congr rfl
  intro c _
  exact congrArg _ (wedge_assoc_blade3 a b c)

theorem wedge_assoc_blade1 {N : ℕ} (a : Fin (2 ^ N)) (y z : MV N) :
    wedge (wedge (blade a) y) z = wedge (blade a) (wedge y z) := by
  rw [mv_decompose y]
  simp only [wedge_sum_left, wedge_sum_right, wedge_smul_left, wedge_smul_right]
  apply Finset.sum_congr rfl
  intro b _
  exact congrArg _ (wedge_assoc_blade2 a b z)

theorem wedge_assoc {N : ℕ} (x y z : MV N) :
    wedge (wedge x y) z = wedge x (wedge y z) := by
  rw [mv_decompose x]
  simp only [wedge_sum_left, wedge_smul_left]
  apply Finset.sum_congr rfl
  intro a _
  exact congrArg _ (wedge_assoc_blade1 a y z)

/-! Generator blades and grade-1 multivectors. -/

theorem pow2Fin_injective {N : ℕ} : Function.Injective (pow2Fin (N := N)) := by
  intro a b hab
  have := congrArg Fin.val hab
  simp only [pow2Fin] at this
  exact Fin.ext (Nat.pow_right_injective (by norm_num) this)

theorem vecMV_apply_pow2 {N : ℕ} (c : Fin N → ℚ) (j : Fin N) :
    vecMV c (pow2Fin j) = c j := by
  simp only [vecMV, pow2Fin]
  rw [Finset.sum_eq_single j]
  · simp
  · intro j' _ hj'
    rw [if_neg]
    intro hc
    exact hj' (Fin.ext (Nat.pow_right_injective (by norm_num) hc.symm))
  · simp

theorem isVec_vecMV {N : ℕ} (c : Fin N → ℚ) : isVec (vecMV c) := by
  intro k hk
  simp only [vecMV]
  rw [Finset.sum_eq_zero]
  intro j _
  rw [if_neg (hk j)]

theorem isVec_zero {N : ℕ} : isVec (0 : MV N) := fun _ _ => rfl

theorem isVec_vecCol {N : ℕ} (m : Matrix (Fin N) (Fin N) ℚ) (t : ℕ) :
    isVec (vecCol m t) := by
  unfold vecCol
  split
  · exact isVec_vecMV _
  · exact isVec_zero

theorem vec_decompose {N : ℕ} {x : MV N} (hx : isVec x) :
    x = ∑ j : Fin N, x (pow2Fin j) • blade (pow2Fin j) := by
  funext k
  rw [Finset.sum_apply]
  simp only [Pi.smul_apply, blade, smul_eq_mul, mul_ite, mul_one, mul_zero]
  by_cases hk : ∃ j0 : Fin N, k = pow2Fin j0
  · obtain ⟨j0, rfl⟩ := hk
    rw [Finset.sum_eq_single j0]
    · simp
    · intro j _ hj
      rw [if_neg]
      intro hc
      exact hj (pow2Fin_injective hc.symm)
    · simp
  · rw [Finset.sum_eq_zero, hx k]
    · intro j hj
      exact absurd (Fin.ext hj : k = pow2Fin j) (fun hc => hk ⟨j, hc⟩)
    · intro j _
      rw [if_neg]
      intro hc
      exact hk ⟨j, hc⟩

theorem pow2_and_pow2 {N : ℕ} {a b : Fin N} (hab : a ≠ b) :
    2 ^ (a : ℕ) &&& 2 ^ (b : ℕ) = 0 := by
  rw [Nat.and_two_pow, Nat.testBit_two_pow]
  have : ((a : ℕ) = (b : ℕ)) = False := by
    simp only [eq_iff_iff, iff_false]
    exact fun hc => hab (Fin.ext hc)
  simp [this]

theorem blade_pow2_anticomm {N : ℕ} (a b : Fin N) :
    wedge (blade (pow2Fin a)) (blade (pow2Fin b))
      = -(wedge (blade (pow2Fin b)) (blade (pow2Fin a))) := by
  by_cases hab : a = b
  · subst hab
    have hov : (pow2Fin a : ℕ) &&& (pow2Fin a : ℕ) ≠ 0 := by
      simp only [pow2Fin, Nat.and_self]
      exact (Nat.two_pow_pos _).ne'
    rw [blade_wedge_blade_overlap hov, neg_zero]
  · have hd1 : (pow2Fin a : ℕ) &&& (pow2Fin b : ℕ) = 0 := pow2_and_pow2 hab
    have hd2 : (pow2Fin b : ℕ) &&& (pow2Fin a : ℕ) = 0 := pow2_and_pow2 (Ne.symm hab)
    rw [blade_wedge_blade hd1, blade_wedge_blade hd2]
    have hvne : (a : ℕ) ≠ (b : ℕ) := fun hc => hab (Fin.ext hc)
    have hsign : wsign N (pow2Fin a : ℕ) (pow2Fin b : ℕ)
        = -wsign N (pow2Fin b : ℕ) (pow2Fin a : ℕ) := by
      simp only [pow2Fin, wsign]
      rw [invCount_two_pow a.isLt b.isLt, invCount_two_pow b.isLt a.isLt]
      rcases lt_or_gt_of_ne hvne with h | h
      · rw [if_neg (by omega), if_pos h]
        norm_num
      · rw [if_pos h, if_neg (by omega)]
        norm_num
    have hidx : (⟨(pow2Fin a : ℕ) + (pow2Fin b : ℕ),
          add_lt_two_pow hd1 (pow2Fin a).isLt (pow2Fin b).isLt⟩ : Fin (2 ^ N))
        = ⟨(pow2Fin b : ℕ) + (pow2Fin a : ℕ),
          add_lt_two_pow hd2 (pow2Fin b).isLt (pow2Fin a).isLt⟩ :=
      Fin.ext (Nat.add_comm _ _)
    rw [hsign, neg_smul, hidx]

theorem wedge_vec_expand {N : ℕ} {u v : MV N} (hu : isVec u) (hv : isVec v) :
    wedge u v = ∑ a : Fin N, ∑ b : Fin N,
      (u (pow2Fin a) * v (pow2Fin b)) • wedge (blade (pow2Fin a)) (blade (pow2Fin b)) := by
  conv_lhs => rw [vec_decompose hu]
  rw [wedge_sum_left]
  apply Finset.sum_congr rfl
  intro a _
  conv_lhs => rw [vec_decompose hv]
  rw [wedge_smul_left, wedge_sum_right, Finset.smul_sum]
  apply Finset.sum_congr rfl
  intro b _
  rw [wedge_smul_right, smul_smul]

theorem wedge_vec_anticomm {N : ℕ} {x y : MV N} (hx : isVec x) (hy : isVec y) :
    wedge x y = -(wedge y x) := by
  rw [wedge_vec_expand hx hy, wedge_vec_expand hy hx]
  conv_rhs => rw [Finset.sum_comm]
  rw [← Finset.sum_neg_distrib]
  apply Finset.sum_congr rfl
  intro a _
  rw [← Finset.sum_neg_distrib]
  apply Finset.sum_congr rfl
  intro b _
  rw [blade_pow2_anticomm, smul_neg, mul_comm]

theorem wedge_vec_self {N : ℕ} {x : MV N} (hx : isVec x) : wedge x x = 0 := by
  have h := wedge_vec_anticomm hx hx
  funext k
  have hk := congrFun h k
  have hk' : wedge x x k = -(wedge x x k) := by
    simpa using hk
  have : wedge x x k = 0 := by linarith
  simpa using this

/-! Facts about the top bit and disjointness used by the builder recursion. -/

theorem tb_split {S : ℕ} (h : S ≠ 0) : S % 2 ^ tb S + 2 ^ tb S = S := by
  obtain ⟨h1, h2⟩ := tb_spec (n := S) (by omega)
  have h3 : S % 2 ^ tb S = S - 2 ^ tb S := by
    rw [Nat.mod_eq_sub_mod h1, Nat.mod_eq_of_lt]
    have hp : 2 ^ (tb S + 1) = 2 ^ tb S + 2 ^ tb S := by ring
    omega
  omega

theorem testBit_tb {S : ℕ} (h : S ≠ 0) : Nat.testBit S (tb S) = true := by
  obtain ⟨h1, h2⟩ := tb_spec (n := S) (by omega)
  have hdiv : S / 2 ^ tb S = 1 := by
    apply Nat.div_eq_of_lt_le
    · simpa using h1
    · have hp : 2 ^ (tb S + 1) = 2 * 2 ^ tb S := by ring
      omega
  rw [Nat.testBit_to_div_mod, hdiv]
  norm_num

theorem tb_lt_of_lt {S N : ℕ} (h0 : S ≠ 0) (h : S < 2 ^ N) : tb S < N := by
  obtain ⟨h1, h2⟩ := tb_spec (n := S) (by omega)
  exact (Nat.pow_lt_pow_iff_right (by norm_num)).mp (lt_of_le_of_lt h1 h)

theorem and_pow_eq_zero_of_lt {S t : ℕ} (h : S < 2 ^ t) : S &&& 2 ^ t = 0 := by
  rw [Nat.and_two_pow, Nat.testBit_eq_false_of_lt h]
  simp

theorem testBit_eq_false_of_and_two_pow {a u : ℕ} (h : a &&& 2 ^ u = 0) :
    a.testBit u = false := by
  rw [Nat.and_two_pow] at h
  cases hb : a.testBit u
  · rfl
  · rw [hb] at h
    simp [(Nat.two_pow_pos u).ne'] at h

theorem wsign_two_pow {n u t : ℕ} (hu : u < n) (ht : t < n) :
    wsign n (2 ^ u) (2 ^ t) = if t < u then -1 else 1 := by
  unfold wsign
  rw [invCount_two_pow hu ht]
  split <;> norm_num

theorem wsign_pow_high {n a t : ℕ} (ha : a < 2 ^ (t + 1)) : wsign n a (2 ^ t) = 1 := by
  unfold wsign
  rw [invCount_two_pow_right_zero ha]
  norm_num

/-! Wedging a built blade image with one generator image. -/

theorem omImage_wedge_vecCol_mem {N : ℕ} (m : Matrix (Fin N) (Fin N) ℚ) :
    ∀ S t : ℕ, S < 2 ^ N → Nat.testBit S t = true →
      wedge (omImage m S) (vecCol m t) = 0 := by
  intro S
  induction S using Nat.strong_induction_on with
  | _ S ih =>
    intro t hS ht
    by_cases hS0 : S = 0
    · subst hS0
      simp [Nat.zero_testBit] at ht
    · have hsplit := tb_split hS0
      have hmodlt : S % 2 ^ tb S < 2 ^ tb S := Nat.mod_lt _ (Nat.two_pow_pos _)
      rw [omImage_eq m hS0, wedge_assoc]
      by_cases htu : t = tb S
      · subst htu
        rw [wedge_vec_self (isVec_vecCol m (tb S)), wedge_zero_right]
      · have htlt : t < tb S := by
          by_contra hc
          push_neg at hc
          have : t ≠ tb S := htu
          have h2 := (tb_spec (n := S) (by omega)).2
          have : Nat.testBit S t = false := by
            apply Nat.testBit_eq_false_of_lt
            calc S < 2 ^ (tb S + 1) := h2
            _ ≤ 2 ^ t := Nat.pow_le_pow_right (by norm_num) (by omega)
          simp [this] at ht
        have ht' : Nat.testBit (S % 2 ^ tb S) t = true := by
          rw [Nat.testBit_mod_two_pow]
          simp [htlt, ht]
        rw [wedge_vec_anticomm (isVec_vecCol m (tb S)) (isVec_vecCol m t),
          wedge_neg_right, ← wedge_assoc,
          ih (S % 2 ^ tb S) (by omega) t (by omega) ht',
          wedge_zero_left, neg_zero]

theorem omImage_wedge_vecCol_not_mem {N : ℕ} (m : Matrix (Fin N) (Fin N) ℚ) :
    ∀ S t : ℕ, S < 2 ^ N → t < N → Nat.testBit S t = false →
      wedge (omImage m S) (vecCol m t)
        = wsign N S (2 ^ t) • omImage m (S + 2 ^ t) := by
  intro S
  induction S using Nat.strong_induction_on with
  | _ S ih =>
    intro t hS htN ht
    by_cases hS0 : S = 0
    · subst hS0
      rw [omImage_zero, wedge_scalar_left, wsign_zero_left, one_smul]
      rw [show (0 : ℕ) + 2 ^ t = 0 + 2 ^ t from rfl,
        omImage_add_pow m (Nat.two_pow_pos t), omImage_zero, wedge_scalar_left]
    · have hsplit := tb_split hS0
      have hmodlt : S % 2 ^ tb S < 2 ^ tb S := Nat.mod_lt _ (Nat.two_pow_pos _)
      have hub := (tb_spec (n := S) (by omega)).2
      have hu : tb S < N := tb_lt_of_lt hS0 hS
      by_cases htu : tb S < t
      · have hSt : S < 2 ^ t := by
          calc S < 2 ^ (tb S + 1) := hub
          _ ≤ 2 ^ t := Nat.pow_le_pow_right (by norm_num) (by omega)
        rw [omImage_add_pow m hSt, wsign_pow_high (by
          calc S < 2 ^ t := hSt
          _ ≤ 2 ^ (t + 1) := Nat.pow_le_pow_right (by norm_num) (by omega)),
          one_smul]
      · have htne : t ≠ tb S := by
          intro hc
          rw [hc, testBit_tb hS0] at ht
          simp at ht
        have htlt : t < tb S := by omega
        have ht' : Nat.testBit (S % 2 ^ tb S) t = false := by
          rw [Nat.testBit_mod_two_pow]
          simp [htlt, ht]
        have hd : S % 2 ^ tb S &&& 2 ^ t = 0 := by
          rw [Nat.and_two_pow, ht']
          simp
        have hd2 : S % 2 ^ tb S &&& 2 ^ tb S = 0 := and_pow_eq_zero_of_lt hmodlt
        have hsum_lt : S % 2 ^ tb S + 2 ^ t < 2 ^ tb S := by
          rw [← or_eq_add hd]
          exact Nat.or_lt_two_pow hmodlt
            ((Nat.pow_lt_pow_iff_right (by norm_num)).mpr htlt)
        have hsgn : wsign N S (2 ^ t) = -(wsign N (S % 2 ^ tb S) (2 ^ t)) := by
          conv_lhs => rw [← hsplit]
          rw [wsign_add_left hd2, wsign_two_pow hu htN, if_pos htlt]
          ring
        calc wedge (omImage m S) (vecCol m t)
            = wedge (wedge (omImage m (S % 2 ^ tb S)) (vecCol m (tb S))) (vecCol m t) := by
              rw [omImage_eq m hS0]
          _ = wedge (omImage m (S % 2 ^ tb S)) (wedge (vecCol m (tb S)) (vecCol m t)) :=
              wedge_assoc _ _ _
          _ = -(wedge (wedge (omImage m (S % 2 ^ tb S)) (vecCol m t)) (vecCol m (tb S))) := by
              rw [wedge_vec_anticomm (isVec_vecCol m (tb S)) (isVec_vecCol m t),
                wedge_neg_right, wedge_assoc]
          _ = -(wedge (wsign N (S % 2 ^ tb S) (2 ^ t) • omImage m (S % 2 ^ tb S + 2 ^ t))
                (vecCol m (tb S))) := by
              rw [ih (S % 2 ^ tb S) (by omega) t (by omega) htN ht']
          _ = -(wsign N (S % 2 ^ tb S) (2 ^ t) •
                wedge (omImage m (S % 2 ^ tb S + 2 ^ t)) (vecCol m (tb S))) := by
              rw [wedge_smul_left]
          _ = -(wsign N (S % 2 ^ tb S) (2 ^ t) •
                omImage m (S % 2 ^ tb S + 2 ^ t + 2 ^ tb S)) := by
              rw [omImage_add_pow m hsum_lt]
          _ = wsign N S (2 ^ t) • omImage m (S + 2 ^ t) := by
              rw [show S % 2 ^ tb S + 2 ^ t + 2 ^ tb S = S + 2 ^ t by omega, hsgn, neg_smul]

/-! The outermorphism property on blade images. -/

theorem omImage_wedge_disjoint {N : ℕ} (m : Matrix (Fin N) (Fin N) ℚ) :
    ∀ b a : ℕ, a < 2 ^ N → b < 2 ^ N → a &&& b = 0 →
      wedge (omImage m a) (omImage m b) = wsign N a b • omImage m (a + b) := by
  intro b
  induction b using Nat.strong_induction_on with
  | _ b ih =>
    intro a ha hb hab
    by_cases hb0 : b = 0
    · subst hb0
      rw [omImage_zero, wedge_scalar_right, wsign_zero_right, one_smul, Nat.add_zero]
    · have hsplit := tb_split hb0
      have hmodlt : b % 2 ^ tb b < 2 ^ tb b := Nat.mod_lt _ (Nat.two_pow_pos _)
      have hu : tb b < N := tb_lt_of_lt hb0 hb
      have hd2 : b % 2 ^ tb b &&& 2 ^ tb b = 0 := and_pow_eq_zero_of_lt hmodlt
      have hab' : a &&& b % 2 ^ tb b = 0 ∧ a &&& 2 ^ tb b = 0 := by
        rw [← and_add_right_eq_zero_iff hd2, hsplit]
        exact hab
      have hta : Nat.testBit a (tb b) = false :=
        testBit_eq_false_of_and_two_pow hab'.2
      have htab' : Nat.testBit (a + b % 2 ^ tb b) (tb b) = false := by
        rw [← or_eq_add hab'.1, Nat.testBit_lor, hta,
          Nat.testBit_eq_false_of_lt hmodlt]
        rfl
      have habN : a + b % 2 ^ tb b < 2 ^ N := add_lt_two_pow hab'.1 ha (by omega)
      have hsgn : wsign N a (b % 2 ^ tb b) * wsign N (a + b % 2 ^ tb b) (2 ^ tb b)
          = wsign N a b := by
        rw [wsign_add_left hab'.1, wsign_pow_high (a := b % 2 ^ tb b) (by
          have : (2 : ℕ) ^ tb b ≤ 2 ^ (tb b + 1) := Nat.pow_le_pow_right (by norm_num) (by omega)
          omega)]
        conv_rhs => rw [← hsplit]
        rw [wsign_add_right hd2]
        ring
      calc wedge (omImage m a) (omImage m b)
          = wedge (omImage m a) (wedge (omImage m (b % 2 ^ tb b)) (vecCol m (tb b))) := by
            rw [omImage_eq m hb0]
        _ = wedge (wedge (omImage m a) (omImage m (b % 2 ^ tb b))) (vecCol m (tb b)) := by
            rw [wedge_assoc]
        _ = wedge (wsign N a (b % 2 ^ tb b) • omImage m (a + b % 2 ^ tb b))
              (vecCol m (tb b)) := by
            rw [ih (b % 2 ^ tb b) (by omega) a ha (by omega) hab'.1]
        _ = wsign N a (b % 2 ^ tb b) •
              wedge (omImage m (a + b % 2 ^ tb b)) (vecCol m (tb b)) := by
            rw [wedge_smul_left]
        _ = wsign N a (b % 2 ^ tb b) • (wsign N (a + b % 2 ^ tb b) (2 ^ tb b) •
              omImage m (a + b % 2 ^ tb b + 2 ^ tb b)) := by
            rw [omImage_wedge_vecCol_not_mem m (a + b % 2 ^ tb b) (tb b) habN hu htab']
        _ = wsign N a b • omImage m (a + b) := by
            rw [smul_smul, hsgn, show a + b % 2 ^ tb b + 2 ^ tb b = a + b by omega]

theorem omImage_wedge_overlap {N : ℕ} (m : Matrix (Fin N) (Fin N) ℚ) :
    ∀ b a : ℕ, a < 2 ^ N → b < 2 ^ N → a &&& b ≠ 0 →
      wedge (omImage m a) (omImage m b) = 0 := by
  intro b
  induction b using Nat.strong_induction_on with
  | _ b ih =>
    intro a ha hb hab
    by_cases hb0 : b = 0
    · subst hb0
      rw [Nat.and_zero] at hab
      exact absurd rfl hab
    · have hsplit := tb_split hb0
      have hmodlt : b % 2 ^ tb b < 2 ^ tb b := Nat.mod_lt _ (Nat.two_pow_pos _)
      have hu : tb b < N := tb_lt_of_lt hb0 hb
      have hd2 : b % 2 ^ tb b &&& 2 ^ tb b = 0 := and_pow_eq_zero_of_lt hmodlt
      rw [omImage_eq m hb0, ← wedge_assoc]
      by_cases hab' : a &&& b % 2 ^ tb b = 0
      · have htop : a &&& 2 ^ tb b ≠ 0 := by
          intro hc
          rw [← hsplit] at hab
          exact hab ((and_add_right_eq_zero_iff hd2).mpr ⟨hab', hc⟩)
        have hta : Nat.testBit a (tb b) = true := by
          cases hbit : Nat.testBit a (tb b)
          · rw [Nat.and_two_pow, hbit] at htop
            simp at htop
          · rfl
        have htab' : Nat.testBit (a + b % 2 ^ tb b) (tb b) = true := by
          rw [← or_eq_add hab', Nat.testBit_lor, hta]
          rfl
        have habN : a + b % 2 ^ tb b < 2 ^ N := add_lt_two_pow hab' ha (by omega)
        rw [omImage_wedge_disjoint m (b % 2 ^ tb b) a ha (by omega) hab',
          wedge_smul_left,
          omImage_wedge_vecCol_mem m (a + b % 2 ^ tb b) (tb b) habN htab',
          smul_zero]
      · rw [ih (b % 2 ^ tb b) (by omega) a ha (by omega) hab', wedge_zero_left]

/-! Linearity of the evaluator. -/

theorem applyOM_blade {N : ℕ} (m : Matrix (Fin N) (Fin N) ℚ) (a : Fin (2 ^ N)) :
    applyOM m (blade a) = omImage m (a : ℕ) := by
  funext k
  simp only [applyOM, blade]
  rw [Finset.sum_eq_single a]
  · simp
  · intro B _ hB
    simp [hB]
  · simp

theorem applyOM_add {N : ℕ} (m : Matrix (Fin N) (Fin N) ℚ) (x y : MV N) :
    applyOM m (x + y) = applyOM m x + applyOM m y := by
  funext k
  simp only [applyOM, Pi.add_apply, ← Finset.sum_add_distrib]
  apply Finset.sum_congr rfl
  intro B _
  ring

theorem applyOM_smul {N : ℕ} (m : Matrix (Fin N) (Fin N) ℚ) (c : ℚ) (x : MV N) :
    applyOM m (c • x) = c • applyOM m x := by
  funext k
  simp only [applyOM, Pi.smul_apply, smul_eq_mul, Finset.mul_sum]
  apply Finset.sum_congr rfl
  intro B _
  ring

theorem applyOM_zero {N : ℕ} (m : Matrix (Fin N) (Fin N) ℚ) :
    applyOM m (0 : MV N) = 0 := by
  funext k
  simp [applyOM]

theorem applyOM_sum {N : ℕ} {α : Type} (m : Matrix (Fin N) (Fin N) ℚ) (s : Finset α)
    (f : α → MV N) : applyOM m (∑ a ∈ s, f a) = ∑ a ∈ s, applyOM m (f a) := by
  induction s using Finset.cons_induction with
  | empty => simpa using applyOM_zero m
  | cons a s ha ih => rw [Finset.sum_cons, Finset.sum_cons, applyOM_add, ih]

/-! Grade support of the blade images. -/

theorem wedge_grade_support {N : ℕ} {x y : MV N} {g1 g2 : ℕ}
    (hx : ∀ k : Fin (2 ^ N), bitGrade N (k : ℕ) ≠ g1 → x k = 0)
    (hy : ∀ k : Fin (2 ^ N), bitGrade N (k : ℕ) ≠ g2 → y k = 0) :
    ∀ k : Fin (2 ^ N), bitGrade N (k : ℕ) ≠ g1 + g2 → wedge x y k = 0 := by
  intro k hk
  simp only [wedge]
  rw [Finset.sum_eq_zero]
  intro i _
  rw [Finset.sum_eq_zero]
  intro j _
  by_cases hc : (i : ℕ) &&& (j : ℕ) = 0 ∧ (i : ℕ) + (j : ℕ) = (k : ℕ)
  · rw [if_pos hc]
    by_cases hgi : bitGrade N (i : ℕ) = g1
    · by_cases hgj : bitGrade N (j : ℕ) = g2
      · exact absurd (by rw [← hc.2, bitGrade_add hc.1, hgi, hgj]) hk
      · rw [hy j hgj, mul_zero]
    · rw [hx i hgi, mul_zero, zero_mul]
  · rw [if_neg hc]

theorem isVec_grade_support {N : ℕ} {x : MV N} (hx : isVec x) :
    ∀ k : Fin (2 ^ N), bitGrade N (k : ℕ) ≠ 1 → x k = 0 :=
  fun k hk => hx k (fun j hj => hk (by rw [hj]; exact bitGrade_two_pow j.isLt))

theorem omImage_grade_support {N : ℕ} (m : Matrix (Fin N) (Fin N) ℚ) :
    ∀ B : ℕ, B < 2 ^ N →
      ∀ k : Fin (2 ^ N), bitGrade N (k : ℕ) ≠ bitGrade N B → omImage m B k = 0 := by
  intro B
  induction B using Nat.strong_induction_on with
  | _ B ih =>
    intro hB k hk
    by_cases hB0 : B = 0
    · subst hB0
      rw [bitGrade_zero] at hk
      rw [omImage_zero]
      unfold blade
      rw [if_neg]
      intro hc
      apply hk
      rw [hc]
      exact bitGrade_zero N
    · have hsplit := tb_split hB0
      have hmodlt : B % 2 ^ tb B < 2 ^ tb B := Nat.mod_lt _ (Nat.two_pow_pos _)
      have hu : tb B < N := tb_lt_of_lt hB0 hB
      have hd2 : B % 2 ^ tb B &&& 2 ^ tb B = 0 := and_pow_eq_zero_of_lt hmodlt
      have hgB : bitGrade N B = bitGrade N (B % 2 ^ tb B) + 1 := by
        conv_lhs => rw [← hsplit]
        rw [bitGrade_add hd2, bitGrade_two_pow hu]
      rw [omImage_eq m hB0]
      have hx := ih (B % 2 ^ tb B) (by omega) (by omega)
      have hy := isVec_grade_support (isVec_vecCol m (tb B))
      exact wedge_grade_support hx hy k (by omega)

/-! Convenience: blade images of single generators. -/

theorem omImage_two_pow {N : ℕ} (m : Matrix (Fin N) (Fin N) ℚ) (t : ℕ) :
    omImage m (2 ^ t) = vecCol m t := by
  have h := omImage_add_pow m (S := 0) (Nat.two_pow_pos t)
  rw [Nat.zero_add] at h
  rw [h, omImage_zero, wedge_scalar_left]

theorem vecCol_apply_pow2 {N : ℕ} (m : Matrix (Fin N) (Fin N) ℚ) (i j : Fin N) :
    vecCol m (i : ℕ) (pow2Fin j) = m j i := by
  unfold vecCol
  rw [dif_pos i.isLt, vecMV_apply_pow2]

/-- C1: for every blade pair `a`, `b` of the layout (and any input matrix in
any dimension), applying the built outermorphism to `a ∧ b` equals the wedge
of the individually transformed blades. -/
theorem outermorphism_identity_on_blades {N : ℕ} (m : Matrix (Fin N) (Fin N) ℚ)
    (a b : Fin (2 ^ N)) :
    applyOM m (wedge (blade a) (blade b))
      = wedge (applyOM m (blade a)) (applyOM m (blade b)) := by
  rw [applyOM_blade, applyOM_blade]
  by_cases hab : (a : ℕ) &&& (b : ℕ) = 0
  · rw [blade_wedge_blade hab, applyOM_smul, applyOM_blade,
      omImage_wedge_disjoint m (b : ℕ) (a : ℕ) a.isLt b.isLt hab]
  · rw [blade_wedge_blade_overlap hab, applyOM_zero,
      omImage_wedge_overlap m (b : ℕ) (a : ℕ) a.isLt b.isLt hab]

/-- C5: the built outermorphism is applied linearly: scalar combinations of
multivectors (vectors in particular) pass through `applyOM` exactly. -/
theorem outermorphism_linearity {N : ℕ} (m : Matrix (Fin N) (Fin N) ℚ)
    (α β : ℚ) (u v : MV N) :
    applyOM m (α • u + β • v) = α • applyOM m u + β • applyOM m v := by
  rw [applyOM_add, applyOM_smul, applyOM_smul]

/-- C3: the grade-1 part of the image of generator `e_i` is exactly column `i`
of the input matrix, equivalently the grade-1 submatrix of the built
outermorphism matrix is the input matrix. -/
theorem grade_one_fidelity {N : ℕ} (m : Matrix (Fin N) (Fin N) ℚ) (i j : Fin N) :
    applyOM m (blade (pow2Fin i)) (pow2Fin j) = m j i
      ∧ omMatrix m (pow2Fin j) (pow2Fin i) = m j i := by
  have h : applyOM m (blade (pow2Fin i)) (pow2Fin j) = m j i := by
    rw [applyOM_blade]
    show omImage m (2 ^ (i : ℕ)) (pow2Fin j) = m j i
    rw [omImage_two_pow, vecCol_apply_pow2]
  exact ⟨h, by rw [← h, applyOM_blade]; rfl⟩

theorem bitGrade_pos {N c : ℕ} (hc : c < 2 ^ N) (h0 : c ≠ 0) : bitGrade N c ≠ 0 := by
  intro hg
  have htb := testBit_tb h0
  have hlt := tb_lt_of_lt h0 hc
  unfold bitGrade at hg
  rw [Finset.sum_eq_zero_iff] at hg
  have hz := hg (tb c) (Finset.mem_range.mpr hlt)
  rw [htb] at hz
  simp at hz

/-- C6: the scalar blade is fixed by every outermorphism, and the scalar row
and column of the built matrix agree with the identity matrix. -/
theorem scalar_blade_fixed {N : ℕ} (m : Matrix (Fin N) (Fin N) ℚ) :
    applyOM m (blade ⟨0, Nat.two_pow_pos N⟩) = blade ⟨0, Nat.two_pow_pos N⟩
      ∧ (∀ k : Fin (2 ^ N), omMatrix m k ⟨0, Nat.two_pow_pos N⟩
          = (1 : Matrix (Fin (2 ^ N)) (Fin (2 ^ N)) ℚ) k ⟨0, Nat.two_pow_pos N⟩)
      ∧ (∀ c : Fin (2 ^ N), omMatrix m ⟨0, Nat.two_pow_pos N⟩ c
          = (1 : Matrix (Fin (2 ^ N)) (Fin (2 ^ N)) ℚ) ⟨0, Nat.two_pow_pos N⟩ c) := by
  refine ⟨?_, ?_, ?_⟩
  · rw [applyOM_blade]
    exact omImage_zero m
  · intro k
    show omImage m 0 k = _
    rw [omImage_zero, Matrix.one_apply]
    rfl
  · intro c
    by_cases hc : c = ⟨0, Nat.two_pow_pos N⟩
    · subst hc
      show omImage m 0 ⟨0, Nat.two_pow_pos N⟩
        = (1 : Matrix (Fin (2 ^ N)) (Fin (2 ^ N)) ℚ)
            ⟨0, Nat.two_pow_pos N⟩ ⟨0, Nat.two_pow_pos N⟩
      rw [omImage_zero, Matrix.one_apply_eq]
      unfold blade
      rw [if_pos rfl]
    · have hc0 : (c : ℕ) ≠ 0 := by
        intro hv
        exact hc (Fin.ext hv)
      show omImage m (c : ℕ) ⟨0, Nat.two_pow_pos N⟩ = _
      rw [Matrix.one_apply_ne (fun hx => hc hx.symm)]
      apply omImage_grade_support m (c : ℕ) c.isLt
      show bitGrade N 0 ≠ bitGrade N (c : ℕ)
      rw [bitGrade_zero]
      exact fun hx => bitGrade_pos c.isLt hc0 hx.symm

/-- C10: the outermorphism preserves grade: a homogeneous multivector of grade
`g` maps to a multivector supported on grade `g`, and every entry of the built
matrix whose row and column blades have different grades is zero. -/
theorem grade_preservation {N : ℕ} (m : Matrix (Fin N) (Fin N) ℚ) :
    (∀ (g : ℕ) (x : MV N),
      (∀ k : Fin (2 ^ N), bitGrade N (k : ℕ) ≠ g → x k = 0) →
      ∀ k : Fin (2 ^ N), bitGrade N (k : ℕ) ≠ g → applyOM m x k = 0)
    ∧ (∀ r c : Fin (2 ^ N), bitGrade N (r : ℕ) ≠ bitGrade N (c : ℕ) →
        omMatrix m r c = 0) := by
  constructor
  · intro g x hx k hk
    simp only [applyOM]
    rw [Finset.sum_eq_zero]
    intro B _
    by_cases hB : bitGrade N (B : ℕ) = g
    · rw [omImage_grade_support m (B : ℕ) B.isLt k (by rw [hB]; exact hk), mul_zero]
    · rw [hx B hB, zero_mul]
  · intro r c hrc
    exact omImage_grade_support m (c : ℕ) c.isLt r hrc

/-! Identity input matrix. -/

theorem vecCol_one {N : ℕ} {t : ℕ} (ht : t < N) :
    vecCol (1 : Matrix (Fin N) (Fin N) ℚ) t
      = blade ⟨2 ^ t, (Nat.pow_lt_pow_iff_right (by norm_num)).mpr ht⟩ := by
  unfold vecCol
  rw [dif_pos ht]
  funext k
  unfold vecMV blade
  by_cases hk : (k : ℕ) = 2 ^ t
  · rw [if_pos (Fin.ext hk : k = ⟨2 ^ t, _⟩)]
    rw [Finset.sum_eq_single (⟨t, ht⟩ : Fin N)]
    · rw [if_pos (show (k : ℕ) = 2 ^ ((⟨t, ht⟩ : Fin N) : ℕ) from hk)]
      show (1 : Matrix (Fin N) (Fin N) ℚ) ⟨t, ht⟩ ⟨t, ht⟩ = 1
      exact Matrix.one_apply_eq _
    · intro j _ hj
      rw [if_neg]
      intro hc
      exact hj (Fin.ext (Nat.pow_right_injective (by norm_num) (hc.symm.trans hk)))
    · simp
  · rw [if_neg (fun hc => hk (congrArg Fin.val hc)), Finset.sum_eq_zero]
    intro j _
    by_cases hkj : (k : ℕ) = 2 ^ (j : ℕ)
    · rw [if_pos hkj]
      show (1 : Matrix (Fin N) (Fin N) ℚ) j ⟨t, ht⟩ = 0
      apply Matrix.one_apply_ne
      intro hc
      subst hc
      exact hk hkj
    · rw [if_neg hkj]

theorem omImage_one {N : ℕ} : ∀ B : ℕ, ∀ hB : B < 2 ^ N,
    omImage (1 : Matrix (Fin N) (Fin N) ℚ) B = blade ⟨B, hB⟩ := by
  intro B
  induction B using Nat.strong_induction_on with
  | _ B ih =>
    intro hB
    by_cases hB0 : B = 0
    · subst hB0
      exact omImage_zero 1
    · have hu := tb_lt_of_lt hB0 hB
      have hsplit := tb_split hB0
      have hmodlt : B % 2 ^ tb B < 2 ^ tb B := Nat.mod_lt _ (Nat.two_pow_pos _)
      have hp2 : 2 ^ tb B < 2 ^ N := (Nat.pow_lt_pow_iff_right (by norm_num)).mpr hu
      have hmodN : B % 2 ^ tb B < 2 ^ N := by omega
      rw [omImage_eq 1 hB0, ih (B % 2 ^ tb B) (by omega) hmodN, vecCol_one hu]
      rw [blade_wedge_blade (a := ⟨B % 2 ^ tb B, hmodN⟩) (b := ⟨2 ^ tb B, hp2⟩)
        (and_pow_eq_zero_of_lt hmodlt)]
      have hs : wsign N ((⟨B % 2 ^ tb B, hmodN⟩ : Fin (2 ^ N)) : ℕ)
          ((⟨2 ^ tb B, hp2⟩ : Fin (2 ^ N)) : ℕ) = 1 := by
        show wsign N (B % 2 ^ tb B) (2 ^ tb B) = 1
        apply wsign_pow_high
        have h2 : 2 ^ (tb B + 1) = 2 * 2 ^ tb B := by ring
        omega
      rw [hs, one_smul]
      exact congrArg blade (Fin.ext (show B % 2 ^ tb B + 2 ^ tb B = B from hsplit))

/-- C7: if the input matrix is the identity, the built outermorphism fixes
every multivector, and the built blade matrix is the identity matrix. -/
theorem identity_map_fixed {N : ℕ} :
    (∀ x : MV N, applyOM (1 : Matrix (Fin N) (Fin N) ℚ) x = x)
      ∧ omMatrix (1 : Matrix (Fin N) (Fin N) ℚ) = 1 := by
  constructor
  · intro x
    conv_lhs => rw [mv_decompose x]
    rw [applyOM_sum]
    conv_rhs => rw [mv_decompose x]
    apply Finset.sum_congr rfl
    intro k _
    rw [applyOM_smul, applyOM_blade, omImage_one (k : ℕ) k.isLt]
  · apply Matrix.ext
    intro r c
    show omImage (1 : Matrix (Fin N) (Fin N) ℚ) (c : ℕ) r = _
    rw [omImage_one (c : ℕ) c.isLt]
    unfold blade
    rw [Matrix.one_apply, Fin.eta]

/-- C9: on grade-1 multivectors the library path (apply the built
outermorphism) and the manual unpack-multiply-repack path agree. -/
theorem vector_path_equivalence {N : ℕ} (m : Matrix (Fin N) (Fin N) ℚ)
    (v : MV N) (hv : isVec v) :
    applyOM m v = manualTransform m v := by
  conv_lhs => rw [vec_decompose hv]
  rw [applyOM_sum]
  have step : ∀ j : Fin N, applyOM m (v (pow2Fin j) • blade (pow2Fin j))
      = v (pow2Fin j) • vecCol m (j : ℕ) := by
    intro j
    rw [applyOM_smul, applyOM_blade]
    show v (pow2Fin j) • omImage m (2 ^ (j : ℕ)) = _
    rw [omImage_two_pow]
  rw [Finset.sum_congr rfl (fun j _ => step j)]
  funext k
  rw [Finset.sum_apply]
  simp only [Pi.smul_apply, smul_eq_mul]
  have hcol : ∀ j : Fin N, vecCol m (j : ℕ) k
      = ∑ r : Fin N, if (k : ℕ) = 2 ^ (r : ℕ) then m r j else 0 := by
    intro j
    unfold vecCol vecMV
    rw [dif_pos j.isLt]
  calc ∑ j : Fin N, v (pow2Fin j) * vecCol m (j : ℕ) k
      = ∑ j : Fin N, ∑ r : Fin N,
          (if (k : ℕ) = 2 ^ (r : ℕ) then v (pow2Fin j) * m r j else 0) := by
        apply Finset.sum_congr rfl
        intro j _
        rw [hcol j, Finset.mul_sum]
        apply Finset.sum_congr rfl
        intro r _
        rw [mul_ite, mul_zero]
    _ = ∑ r : Fin N, ∑ j : Fin N,
          (if (k : ℕ) = 2 ^ (r : ℕ) then v (pow2Fin j) * m r j else 0) :=
        Finset.sum_comm
    _ = ∑ r : Fin N, (if (k : ℕ) = 2 ^ (r : ℕ)
          then ∑ i : Fin N, m r i * v (pow2Fin i) else 0) := by
        apply Finset.sum_congr rfl
        intro r _
        by_cases hk : (k : ℕ) = 2 ^ (r : ℕ)
        · rw [if_pos hk]
          apply Finset.sum_congr rfl
          intro j _
          rw [if_pos hk, mul_comm]
        · rw [Finset.sum_eq_zero (fun j _ => if_neg hk), if_neg hk]
    _ = manualTransform m v k := rfl

/-! Iterated wedge chains: linearity in each slot. -/

theorem vecMV_add {N : ℕ} (c d : Fin N → ℚ) : vecMV (c + d) = vecMV c + vecMV d := by
  funext k
  simp only [vecMV, Pi.add_apply, ← Finset.sum_add_distrib]
  apply Finset.sum_congr rfl
  intro j _
  by_cases h : (k : ℕ) = 2 ^ (j : ℕ)
  · simp [h]
  · simp [h]

theorem vecMV_smul {N : ℕ} (a : ℚ) (c : Fin N → ℚ) : vecMV (a • c) = a • vecMV c := by
  funext k
  simp only [vecMV, Pi.smul_apply, smul_eq_mul, Finset.mul_sum]
  apply Finset.sum_congr rfl
  intro j _
  by_cases h : (k : ℕ) = 2 ^ (j : ℕ)
  · simp [h]
  · simp [h]

theorem update_comp_castSucc {α : Type} {n : ℕ} (v : Fin (n + 1) → α) (i : Fin n)
    (z : α) :
    (fun j : Fin n => Function.update v i.castSucc z j.castSucc)
      = Function.update (fun j : Fin n => v j.castSucc) i z := by
  funext j
  by_cases hj : j = i
  · subst hj
    rw [Function.update_same, Function.update_same]
  · rw [Function.update_noteq (fun hc => hj (Fin.castSucc_injective n hc)),
      Function.update_noteq hj]

theorem update_last_comp {α : Type} {n : ℕ} (v : Fin (n + 1) → α) (z : α) :
    (fun j : Fin n => Function.update v (Fin.last n) z j.castSucc)
      = fun j : Fin n => v j.castSucc := by
  funext j
  rw [Function.update_noteq (Fin.castSucc_lt_last j).ne]

theorem wedgeChain_update_add {N : ℕ} :
    ∀ (n : ℕ) (v : Fin n → MV N) (i : Fin n) (x y : MV N),
      wedgeChain n (Function.update v i (x + y))
        = wedgeChain n (Function.update v i x) + wedgeChain n (Function.update v i y) := by
  intro n
  induction n with
  | zero => intro v i; exact i.elim0
  | succ n ih =>
    intro v i x y
    induction i using Fin.lastCases with
    | last =>
      show wedge (wedgeChain n _) _ = wedge (wedgeChain n _) _ + wedge (wedgeChain n _) _
      rw [update_last_comp, update_last_comp, update_last_comp,
        Function.update_same, Function.update_same, Function.update_same,
        wedge_add_right]
    | cast i =>
      show wedge (wedgeChain n _) _ = wedge (wedgeChain n _) _ + wedge (wedgeChain n _) _
      rw [update_comp_castSucc, update_comp_castSucc, update_comp_castSucc,
        Function.update_noteq (Fin.castSucc_lt_last i).ne',
        Function.update_noteq (Fin.castSucc_lt_last i).ne',
        Function.update_noteq (Fin.castSucc_lt_last i).ne',
        ih, wedge_add_left]

theorem wedgeChain_update_smul {N : ℕ} :
    ∀ (n : ℕ) (v : Fin n → MV N) (i : Fin n) (c : ℚ) (x : MV N),
      wedgeChain n (Function.update v i (c • x))
        = c • wedgeChain n (Function.update v i x) := by
  intro n
  induction n with
  | zero => intro v i; exact i.elim0
  | succ n ih =>
    intro v i c x
    induction i using Fin.lastCases with
    | last =>
      show wedge (wedgeChain n _) _ = c • wedge (wedgeChain n _) _
      rw [update_last_comp, update_last_comp,
        Function.update_same, Function.update_same, wedge_smul_right]
    | cast i =>
      show wedge (wedgeChain n _) _ = c • wedge (wedgeChain n _) _
      rw [update_comp_castSucc, update_comp_castSucc,
        Function.update_noteq (Fin.castSucc_lt_last i).ne',
        Function.update_noteq (Fin.castSucc_lt_last i).ne',
        ih, wedge_smul_left]

/-! Iterated wedge chains of grade-1 factors: alternating. -/

theorem wedgeChain_wedge_vec_mem {N : ℕ} :
    ∀ (n : ℕ) (w : Fin n → MV N), (∀ i, isVec (w i)) →
      ∀ x : MV N, isVec x → (∃ i, w i = x) → wedge (wedgeChain n w) x = 0 := by
  intro n
  induction n with
  | zero =>
    intro w _ x _ hex
    exact (hex.choose).elim0
  | succ n ih =>
    intro w hw x hx hex
    obtain ⟨i, hi⟩ := hex
    show wedge (wedge (wedgeChain n fun j => w j.castSucc) (w (Fin.last n))) x = 0
    induction i using Fin.lastCases with
    | last =>
      rw [wedge_assoc, hi, wedge_vec_self hx, wedge_zero_right]
    | cast i =>
      rw [wedge_assoc, wedge_vec_anticomm (hw (Fin.last n)) hx, wedge_neg_right,
        ← wedge_assoc,
        ih (fun j => w j.castSucc) (fun j => hw j.castSucc) x hx ⟨i, hi⟩,
        wedge_zero_left, neg_zero]

theorem wedgeChain_eq_zero_of_eq {N : ℕ} :
    ∀ (n : ℕ) (v : Fin n → MV N), (∀ i, isVec (v i)) →
      ∀ i j : Fin n, v i = v j → i ≠ j → wedgeChain n v = 0 := by
  intro n
  induction n with
  | zero => intro v _ i; exact i.elim0
  | succ n ih =>
    intro v hv i j hij hne
    show wedge (wedgeChain n fun k => v k.castSucc) (v (Fin.last n)) = 0
    induction i using Fin.lastCases with
    | last =>
      induction j using Fin.lastCases with
      | last => exact absurd rfl hne
      | cast j =>
        apply wedgeChain_wedge_vec_mem n _ (fun k => hv k.castSucc) _ (hv (Fin.last n))
        exact ⟨j, hij.symm⟩
    | cast i =>
      induction j using Fin.lastCases with
      | last =>
        apply wedgeChain_wedge_vec_mem n _ (fun k => hv k.castSucc) _ (hv (Fin.last n))
        exact ⟨i, hij⟩
      | cast j =>
        rw [ih (fun k => v k.castSucc) (fun k => hv k.castSucc) i j hij
          (fun hc => hne (congrArg Fin.castSucc hc)), wedge_zero_left]

/-! Wedge chains of generator blades and of matrix columns. -/

theorem two_pow_sub_one_lt {n N : ℕ} (hn : n ≤ N) : 2 ^ n - 1 < 2 ^ N := by
  have h1 : 2 ^ n ≤ 2 ^ N := Nat.pow_le_pow_right (by norm_num) hn
  have h2 := Nat.two_pow_pos n
  omega

theorem wedgeChain_blades {N : ℕ} :
    ∀ n (hn : n ≤ N),
      wedgeChain n (fun i : Fin n => blade (pow2Fin (Fin.castLE hn i)))
        = blade ⟨2 ^ n - 1, two_pow_sub_one_lt hn⟩ := by
  intro n
  induction n with
  | zero => intro hn; rfl
  | succ n ih =>
    intro hn
    have hn' : n ≤ N := by omega
    show wedge (wedgeChain n _) (blade (pow2Fin (Fin.castLE hn (Fin.last n)))) = _
    have hfam : (fun i : Fin n => blade (pow2Fin (Fin.castLE hn (Fin.castSucc i))))
        = fun i : Fin n => blade (pow2Fin (Fin.castLE hn' i)) := by
      funext i
      rfl
    rw [hfam, ih hn']
    have hlt : 2 ^ n - 1 < 2 ^ n := by
      have := Nat.two_pow_pos n
      omega
    rw [blade_wedge_blade (a := ⟨2 ^ n - 1, two_pow_sub_one_lt hn'⟩)
      (b := pow2Fin (Fin.castLE hn (Fin.last n))) (and_pow_eq_zero_of_lt hlt)]
    have hs : wsign N ((⟨2 ^ n - 1, two_pow_sub_one_lt hn'⟩ : Fin (2 ^ N)) : ℕ)
        ((pow2Fin (Fin.castLE hn (Fin.last n))) : ℕ) = 1 := by
      show wsign N (2 ^ n - 1) (2 ^ n) = 1
      apply wsign_pow_high
      have h2 : 2 ^ (n + 1) = 2 * 2 ^ n := by ring
      have := Nat.two_pow_pos n
      omega
    rw [hs, one_smul]
    apply congrArg blade
    apply Fin.ext
    show 2 ^ n - 1 + 2 ^ n = 2 ^ (n + 1) - 1
    have h2 : 2 ^ (n + 1) = 2 * 2 ^ n := by ring
    have := Nat.two_pow_pos n
    omega

theorem omImage_chain {N : ℕ} (m : Matrix (Fin N) (Fin N) ℚ) :
    ∀ n, n ≤ N →
      omImage m (2 ^ n - 1) = wedgeChain n (fun i : Fin n => vecCol m (i : ℕ)) := by
  intro n
  induction n with
  | zero => intro _; exact omImage_zero m
  | succ n ih =>
    intro hn
    have h2 : 2 ^ (n + 1) = 2 * 2 ^ n := by ring
    have hpos := Nat.two_pow_pos n
    have hsplit : 2 ^ (n + 1) - 1 = (2 ^ n - 1) + 2 ^ n := by omega
    have hlt : 2 ^ n - 1 < 2 ^ n := by omega
    rw [hsplit, omImage_add_pow m hlt, ih (by omega)]
    rfl

/-- C2: the pseudoscalar coefficient of the image of the pseudoscalar blade
under the built outermorphism equals the determinant of the input matrix
(exactly, in the rational model). -/
theorem pseudoscalar_coeff_eq_det {N : ℕ} (m : Matrix (Fin N) (Fin N) ℚ) :
    applyOM m (blade (psFin N)) (psFin N) = m.det := by
  classical
  let F : AlternatingMap ℚ (Fin N → ℚ) ℚ (Fin N) :=
    { toFun := fun v => wedgeChain N (fun i => vecMV (v i)) (psFin N)
      map_update_add' := by
        intro dec v i x y
        have hI : dec = instDecidableEqFin N := Subsingleton.elim _ _
        subst hI
        have h1 : (fun k => vecMV (Function.update v i (x + y) k))
            = Function.update (fun k => vecMV (v k)) i (vecMV (x + y)) := by
          funext j
          exact Function.apply_update (fun _ c => vecMV c) v i (x + y) j
        have h2 : (fun k => vecMV (Function.update v i x k))
            = Function.update (fun k => vecMV (v k)) i (vecMV x) := by
          funext j
          exact Function.apply_update (fun _ c => vecMV c) v i x j
        have h3 : (fun k => vecMV (Function.update v i y k))
            = Function.update (fun k => vecMV (v k)) i (vecMV y) := by
          funext j
          exact Function.apply_update (fun _ c => vecMV c) v i y j
        show wedgeChain N (fun k => vecMV (Function.update v i (x + y) k)) (psFin N)
          = wedgeChain N (fun k => vecMV (Function.update v i x k)) (psFin N)
            + wedgeChain N (fun k => vecMV (Function.update v i y k)) (psFin N)
        rw [h1, h2, h3, vecMV_add, wedgeChain_update_add]
        rfl
      map_update_smul' := by
        intro dec v i c x
        have hI : dec = instDecidableEqFin N := Subsingleton.elim _ _
        subst hI
        have h1 : (fun k => vecMV (Function.update v i (c • x) k))
            = Function.update (fun k => vecMV (v k)) i (vecMV (c • x)) := by
          funext j
          exact Function.apply_update (fun _ d => vecMV d) v i (c • x) j
        have h2 : (fun k => vecMV (Function.update v i x k))
            = Function.update (fun k => vecMV (v k)) i (vecMV x) := by
          funext j
          exact Function.apply_update (fun _ d => vecMV d) v i x j
        show wedgeChain N (fun k => vecMV (Function.update v i (c • x) k)) (psFin N)
          = c • wedgeChain N (fun k => vecMV (Function.update v i x k)) (psFin N)
        rw [h1, h2, vecMV_smul, wedgeChain_update_smul]
        rfl
      map_eq_zero_of_eq' := by
        intro v i j hij hne
        show wedgeChain N (fun k => vecMV (v k)) (psFin N) = 0
        rw [wedgeChain_eq_zero_of_eq N _ (fun k => isVec_vecMV (v k)) i j
          (congrArg vecMV hij) hne]
        rfl }
  have key := AlternatingMap.eq_smul_basis_det (Pi.basisFun ℚ (Fin N)) F
  have happ : F (fun j => fun i => m i j)
      = F ⇑(Pi.basisFun ℚ (Fin N))
        • (Pi.basisFun ℚ (Fin N)).det (fun j => fun i => m i j) := by
    conv_lhs => rw [key]
    rw [AlternatingMap.smul_apply]
  have hcols : F (fun j => fun i => m i j) = applyOM m (blade (psFin N)) (psFin N) := by
    show wedgeChain N (fun i => vecMV (fun r => m r i)) (psFin N)
      = applyOM m (blade (psFin N)) (psFin N)
    have hfam : (fun i : Fin N => vecMV (fun r => m r i))
        = fun i : Fin N => vecCol m (i : ℕ) := by
      funext i
      unfold vecCol
      rw [dif_pos i.isLt]
    rw [hfam, ← omImage_chain m N le_rfl, applyOM_blade]
    rfl
  have hbasis : F ⇑(Pi.basisFun ℚ (Fin N)) = 1 := by
    show wedgeChain N (fun i => vecMV ((Pi.basisFun ℚ (Fin N)) i)) (psFin N) = 1
    have hfam : (fun i : Fin N => vecMV ((Pi.basisFun ℚ (Fin N)) i))
        = fun i : Fin N => blade (pow2Fin i) := by
      funext i
      rw [Pi.basisFun_apply]
      funext k
      unfold vecMV blade
      simp only [Pi.single_apply]
      by_cases hk : (k : ℕ) = 2 ^ (i : ℕ)
      · rw [Finset.sum_eq_single i]
        · rw [if_pos hk, if_pos rfl, if_pos (Fin.ext hk)]
        · intro j _ hj
          by_cases hkj : (k : ℕ) = 2 ^ (j : ℕ)
          · rw [if_pos hkj, if_neg hj]
          · rw [if_neg hkj]
        · simp
      · rw [if_neg (fun hc => hk (congrArg Fin.val hc)), Finset.sum_eq_zero]
        intro j _
        by_cases hkj : (k : ℕ) = 2 ^ (j : ℕ)
        · rw [if_pos hkj, if_neg]
          intro hc
          rw [hc] at hkj
          exact hk hkj
        · rw [if_neg hkj]
    have hfam2 : (fun i : Fin N => blade (pow2Fin (Fin.castLE le_rfl i)))
        = fun i : Fin N => blade (pow2Fin i) := by
      funext i
      rfl
    rw [hfam, ← hfam2, wedgeChain_blades N le_rfl]
    unfold blade
    rw [if_pos (show psFin N
      = (⟨2 ^ N - 1, two_pow_sub_one_lt le_rfl⟩ : Fin (2 ^ N)) from rfl)]
  have hdet : (Pi.basisFun ℚ (Fin N)).det (fun j => fun i => m i j) = m.det := by
    rw [Basis.det_apply]
    have hm : (Pi.basisFun ℚ (Fin N)).toMatrix (fun j => fun i => m i j) = m := by
      apply Matrix.ext
      intro i j
      rw [Basis.toMatrix_apply, Pi.basisFun_repr]
    rw [hm]
  rw [← hcols, happ, hbasis, hdet, one_smul]

/-- C8: building fails with `DimensionMismatch` exactly when the supplied
matrix is not N×N for the layout, applying fails with `DimensionMismatch`
exactly when the multivector's blade basis does not match the layout, and a
failing call returns an error only, never an ok value (no partial result). -/
theorem dimension_mismatch_errors (N : ℕ) (rm : RawMatrix)
    (m : Matrix (Fin N) (Fin N) ℚ) (v : RawMV) :
    (buildOutermorphism N rm = Except.error TransformError.dimensionMismatch
        ↔ ¬(rm.rows = N ∧ rm.cols = N))
      ∧ (applyOutermorphism N m v = Except.error TransformError.dimensionMismatch
        ↔ v.dim ≠ 2 ^ N)
      ∧ (∀ e, buildOutermorphism N rm = Except.error e →
          ∀ om, buildOutermorphism N rm ≠ Except.ok om)
      ∧ (∀ e, applyOutermorphism N m v = Except.error e →
          ∀ x, applyOutermorphism N m v ≠ Except.ok x) := by
  refine ⟨?_, ?_, ?_, ?_⟩
  · unfold buildOutermorphism
    split
    · simp [*]
    · simp [*]
  · unfold applyOutermorphism
    split
    · simp [*]
    · simp [*]
  · intro e he om hok
    rw [he] at hok
    exact Except.noConfusion hok
  · intro e he x hok
    rw [he] at hok
    exact Except.noConfusion hok


theorem wsign_even {n a b : ℕ} (h : invCount n a b % 2 = 0) : wsign n a b = 1 := by
  unfold wsign
  exact Even.neg_one_pow (Nat.even_iff.mpr h)

theorem wsign_odd {n a b : ℕ} (h : invCount n a b % 2 = 1) : wsign n a b = -1 := by
  unfold wsign
  exact Odd.neg_one_pow (Nat.odd_iff.mpr h)

/-- C4: the tutorial's concrete N=3 scenario with input matrix
(1,0,0),(0,1,-1),(0,1,1): e1 is fixed, e2 maps to e2+e3, e3 to -e2+e3,
e1∧e2 to e1∧e2 + e1∧e3, and the pseudoscalar coefficient of the image of
e1∧e2∧e3 is 2, the determinant. -/
theorem concrete_scenario_g3 :
    applyOM rotAndScaleX (blade (pow2Fin (0 : Fin 3))) = blade (pow2Fin (0 : Fin 3))
    ∧ applyOM rotAndScaleX (blade (pow2Fin (1 : Fin 3)))
        = blade (pow2Fin (1 : Fin 3)) + blade (pow2Fin (2 : Fin 3))
    ∧ applyOM rotAndScaleX (blade (pow2Fin (2 : Fin 3)))
        = -blade (pow2Fin (1 : Fin 3)) + blade (pow2Fin (2 : Fin 3))
    ∧ applyOM rotAndScaleX
        (wedge (blade (pow2Fin (0 : Fin 3))) (blade (pow2Fin (1 : Fin 3))))
      = wedge (blade (pow2Fin (0 : Fin 3))) (blade (pow2Fin (1 : Fin 3)))
        + wedge (blade (pow2Fin (0 : Fin 3))) (blade (pow2Fin (2 : Fin 3)))
    ∧ applyOM rotAndScaleX (blade (psFin 3)) (psFin 3) = 2 := by
  have hc0 : vecCol rotAndScaleX 0 = blade (pow2Fin (0 : Fin 3)) := by
    funext k
    unfold vecCol vecMV rotAndScaleX blade pow2Fin
    rw [dif_pos (by norm_num : (0 : ℕ) < 3)]
    fin_cases k <;> simp [Fin.sum_univ_three, Matrix.of_apply]
  have hc1 : vecCol rotAndScaleX 1
      = blade (pow2Fin (1 : Fin 3)) + blade (pow2Fin (2 : Fin 3)) := by
    funext k
    unfold vecCol vecMV rotAndScaleX blade pow2Fin
    rw [dif_pos (by norm_num : (1 : ℕ) < 3)]
    fin_cases k <;> simp [Fin.sum_univ_three, Matrix.of_apply]
  have hc2 : vecCol rotAndScaleX 2
      = -blade (pow2Fin (1 : Fin 3)) + blade (pow2Fin (2 : Fin 3)) := by
    funext k
    unfold vecCol vecMV rotAndScaleX blade pow2Fin
    rw [dif_pos (by norm_num : (2 : ℕ) < 3)]
    fin_cases k <;> simp [Fin.sum_univ_three, Matrix.of_apply]
  have h1 : applyOM rotAndScaleX (blade (pow2Fin (0 : Fin 3)))
      = blade (pow2Fin (0 : Fin 3)) := by
    rw [applyOM_blade]
    show omImage rotAndScaleX (2 ^ (0 : ℕ)) = _
    rw [omImage_two_pow, hc0]
  have h2 : applyOM rotAndScaleX (blade (pow2Fin (1 : Fin 3)))
      = blade (pow2Fin (1 : Fin 3)) + blade (pow2Fin (2 : Fin 3)) := by
    rw [applyOM_blade]
    show omImage rotAndScaleX (2 ^ (1 : ℕ)) = _
    rw [omImage_two_pow, hc1]
  have h3 : applyOM rotAndScaleX (blade (pow2Fin (2 : Fin 3)))
      = -blade (pow2Fin (1 : Fin 3)) + blade (pow2Fin (2 : Fin 3)) := by
    rw [applyOM_blade]
    show omImage rotAndScaleX (2 ^ (2 : ℕ)) = _
    rw [omImage_two_pow, hc2]
  have hw01 : wedge (blade (pow2Fin (0 : Fin 3))) (blade (pow2Fin (1 : Fin 3)))
      = blade ⟨3, by norm_num⟩ := by
    rw [blade_wedge_blade (a := pow2Fin 0) (b := pow2Fin 1) (by decide),
      wsign_even (by decide), one_smul]
    exact congrArg blade (Fin.ext (by decide))
  have hw02 : wedge (blade (pow2Fin (0 : Fin 3))) (blade (pow2Fin (2 : Fin 3)))
      = blade ⟨5, by norm_num⟩ := by
    rw [blade_wedge_blade (a := pow2Fin 0) (b := pow2Fin 2) (by decide),
      wsign_even (by decide), one_smul]
    exact congrArg blade (Fin.ext (by decide))
  have e1 : omImage rotAndScaleX 1 = vecCol rotAndScaleX 0 := by
    show omImage rotAndScaleX (2 ^ (0 : ℕ)) = _
    rw [omImage_two_pow]
  have e3 : omImage rotAndScaleX 3 = blade ⟨3, by norm_num⟩ + blade ⟨5, by norm_num⟩ := by
    have hstep : omImage rotAndScaleX 3
        = wedge (omImage rotAndScaleX 1) (vecCol rotAndScaleX 1) :=
      omImage_add_pow rotAndScaleX (S := 1) (t := 1) (by norm_num)
    rw [hstep, e1, hc0, hc1, wedge_add_right, hw01, hw02]
  have h4 : applyOM rotAndScaleX
      (wedge (blade (pow2Fin (0 : Fin 3))) (blade (pow2Fin (1 : Fin 3))))
      = wedge (blade (pow2Fin (0 : Fin 3))) (blade (pow2Fin (1 : Fin 3)))
        + wedge (blade (pow2Fin (0 : Fin 3))) (blade (pow2Fin (2 : Fin 3))) := by
    rw [hw01, hw02, applyOM_blade]
    show omImage rotAndScaleX 3 = _
    exact e3
  have w32 : wedge (blade (⟨3, by norm_num⟩ : Fin (2 ^ 3))) (blade (pow2Fin (1 : Fin 3)))
      = 0 := blade_wedge_blade_overlap (by decide)
  have w34 : wedge (blade (⟨3, by norm_num⟩ : Fin (2 ^ 3))) (blade (pow2Fin (2 : Fin 3)))
      = blade ⟨7, by norm_num⟩ := by
    rw [blade_wedge_blade (by decide), wsign_even (by decide), one_smul]
    exact congrArg blade (Fin.ext (by decide))
  have w52 : wedge (blade (⟨5, by norm_num⟩ : Fin (2 ^ 3))) (blade (pow2Fin (1 : Fin 3)))
      = -blade ⟨7, by norm_num⟩ := by
    rw [blade_wedge_blade (by decide), wsign_odd (by decide), neg_one_smul]
    exact congrArg Neg.neg (congrArg blade (Fin.ext (by decide)))
  have w54 : wedge (blade (⟨5, by norm_num⟩ : Fin (2 ^ 3))) (blade (pow2Fin (2 : Fin 3)))
      = 0 := blade_wedge_blade_overlap (by decide)
  have h5 : applyOM rotAndScaleX (blade (psFin 3)) (psFin 3) = 2 := by
    rw [applyOM_blade]
    show omImage rotAndScaleX 7 (psFin 3) = 2
    have hstep : omImage rotAndScaleX 7
        = wedge (omImage rotAndScaleX 3) (vecCol rotAndScaleX 2) :=
      omImage_add_pow rotAndScaleX (S := 3) (t := 2) (by norm_num)
    rw [hstep, e3, hc2, wedge_add_left, wedge_add_right, wedge_add_right,
      wedge_neg_right, wedge_neg_right, w32, w34, w52, w54]
    simp only [Pi.add_apply, Pi.neg_apply, Pi.zero_apply, neg_zero, neg_neg,
      zero_add, add_zero]
    unfold blade
    rw [if_pos (show psFin 3 = ⟨7, by norm_num⟩ from rfl)]
    norm_num
  exact ⟨h1, h2, h3, h4, h5⟩

/-- Witness for C9: the notebook's vector 2·e1 + 3·e2 under the concrete
matrix; the grade-1 hypothesis is checked on this input. -/
theorem vector_path_equivalence_witness :
    isVec ((2 : ℚ) • blade (pow2Fin (0 : Fin 3)) + (3 : ℚ) • blade (pow2Fin (1 : Fin 3)))
      ∧ applyOM rotAndScaleX
          ((2 : ℚ) • blade (pow2Fin (0 : Fin 3)) + (3 : ℚ) • blade (pow2Fin (1 : Fin 3)))
        = manualTransform rotAndScaleX
          ((2 : ℚ) • blade (pow2Fin (0 : Fin 3)) + (3 : ℚ) • blade (pow2Fin (1 : Fin 3))) := by
  have hv : isVec ((2 : ℚ) • blade (pow2Fin (0 : Fin 3))
      + (3 : ℚ) • blade (pow2Fin (1 : Fin 3))) := by
    intro k hk
    have h0 : k ≠ pow2Fin (0 : Fin 3) := fun hc => hk 0 (congrArg Fin.val hc)
    have h1 : k ≠ pow2Fin (1 : Fin 3) := fun hc => hk 1 (congrArg Fin.val hc)
    simp only [Pi.add_apply, Pi.smul_apply, blade, smul_eq_mul, if_neg h0, if_neg h1]
    norm_num
  exact ⟨hv, vector_path_equivalence rotAndScaleX _ hv⟩

/-- Witness for C10: the grade-2 blade e1∧e2 maps to a multivector with zero
coefficient on the grade-1 blade e1, under the concrete matrix. -/
theorem grade_preservation_witness :
    bitGrade 3 ((⟨1, by norm_num⟩ : Fin (2 ^ 3)) : ℕ) ≠ 2
      ∧ applyOM rotAndScaleX (blade ⟨3, by norm_num⟩) ⟨1, by norm_num⟩ = 0 := by
  have hx : ∀ k : Fin (2 ^ 3), bitGrade 3 (k : ℕ) ≠ 2
      → blade (⟨3, by norm_num⟩ : Fin (2 ^ 3)) k = 0 := by
    intro k hk
    unfold blade
    rw [if_neg]
    intro hc
    rw [hc] at hk
    exact hk (by decide)
  exact ⟨by decide, (grade_preservation rotAndScaleX).1 2 _ hx ⟨1, by norm_num⟩ (by decide)⟩

/-- Witness for C8: a 2×2 matrix offered to a 3-dimensional layout is rejected
with DimensionMismatch. -/
theorem dimension_mismatch_errors_witness :
    ¬((2 : ℕ) = 3 ∧ (2 : ℕ) = 3)
      ∧ buildOutermorphism 3 ⟨2, 2, fun _ _ => 0⟩
        = Except.error TransformError.dimensionMismatch :=
  ⟨by decide, (dimension_mismatch_errors 3 ⟨2, 2, fun _ _ => 0⟩ rotAndScaleX
    ⟨8, fun _ => 0⟩).1.mpr (by decide)⟩
